import Mathlib

/-!
Verification development for the file-concatenator engine in `src/main.py`
(class `FileConcatenatorThread` and the manifest builder
`ConcatenatorApp.generate_file_tree`).

The embedding models POSIX path semantics: a filesystem path is an absolute
path represented as its list of `/`-separated segments (none of which contain
a separator).  External effects are modelled as explicit inputs:

* reading a file (`open(...).read()`) is a function `Path → Except String String`
  (`.error reason` models any raised exception);
* the two git subprocesses are functions returning `Option` values, with
  `none` modelling a non-zero exit status or a `subprocess.TimeoutExpired`;
* the cooperative cancellation flag (`self._is_cancelled`, set asynchronously
  by `cancel()`) is modelled by an oracle `k : Option Nat`: the flag checks in
  the source are numbered in execution order, and check number `i` observes
  the flag set exactly when `k = some j` with `j ≤ i`.  `k = none` is the run
  on which `cancel()` is never called.
-/

namespace Promptly

/-- An absolute POSIX path, as its list of segments (`/a/b.py` is `["a", "b.py"]`). -/
abbrev Path := List String

/-- `os.path.basename`: the final segment (empty for the root path). -/
def base (p : Path) : String := p.getLast?.getD ""

/-- Render a path back to its absolute string form, as Python would hold it. -/
def renderPath (p : Path) : String := "/" ++ String.intercalate "/" p

/-- Association-list lookup, first binding wins (models a Python dict lookup). -/
def lookupA {α β : Type} [DecidableEq α] : List (α × β) → α → Option β
  | [], _ => none
  | (a, b) :: rest, k => if a = k then some b else lookupA rest k

/-- Association-list update: replace the binding in place if the key exists,
otherwise append it (models Python dict assignment / `setdefault`). -/
def assocSet {α β : Type} [DecidableEq α] : List (α × β) → α → β → List (α × β)
  | [], k, v => [(k, v)]
  | (a, b) :: rest, k, v => if a = k then (a, v) :: rest else (a, b) :: assocSet rest k v

/-! ## Extension extraction (`os.path.splitext`)

`posixpath.splitext` finds the last `.` of the path; the extension starts
there only if the dot lies inside the final segment and some character of the
final segment strictly before it is not a dot (so `.bashrc` has no
extension).  On a segment list the final-segment condition is automatic, so
we model the function on the characters of the base name. -/

/-- Index of the last occurrence of `.` in a character list, if any. -/
def lastDotIdx (cs : List Char) : Option Nat :=
  match cs.reverse.findIdx? (· == '.') with
  | none => none
  | some r => some (cs.length - 1 - r)

/-- The extension part of `os.path.splitext` applied to a base name:
the suffix starting at the last dot, provided a non-dot character occurs
before that dot; otherwise empty. -/
def splitextExt (name : List Char) : List Char :=
  match lastDotIdx name with
  | none => []
  | some i => if (name.take i).any (fun c => c != '.') then name.drop i else []

/-! ## Shell-glob matching (`fnmatch.fnmatch`)

`fnmatch` translates the pattern to a regular expression and matches the
whole name; on POSIX `os.path.normcase` is the identity, so no case folding
happens.  We translate the pattern to a token list (`*`, `?`, character
classes, literals) following `fnmatch.translate`, and match directly. -/

/-- One unit of a translated glob pattern. -/
inductive GlobTok where
  | star : GlobTok
  | anyChar : GlobTok
  | lit : Char → GlobTok
  | cls : Bool → List (Char × Char) → GlobTok
deriving DecidableEq

/-- Split a character list at the first `]`, returning the part before and
after (the remainder carries a length bound used for termination). -/
def splitAtRBracket : (cs : List Char) →
    Option (List Char × { r : List Char // r.length < cs.length })
  | [] => none
  | ']' :: rest => some ([], ⟨rest, by simp⟩)
  | c :: rest =>
    match splitAtRBracket rest with
    | none => none
    | some (a, ⟨b, hb⟩) => some (c :: a, ⟨b, by simp; omega⟩)

/-- Scan the body of a `[...]` class, as `fnmatch.translate` does: an optional
leading `!` negates; a `]` directly after that is literal content; the class
runs to the next `]`.  Returns `(negated, contents, rest-of-pattern)`, or
`none` when there is no closing `]` (then `[` is a literal). -/
def scanClass : (cs : List Char) →
    Option (Bool × List Char × { r : List Char // r.length < cs.length })
  | [] => none
  | '!' :: cs1 =>
    match cs1 with
    | [] => none
    | c :: t =>
      match splitAtRBracket t with
      | none => none
      | some (inside, ⟨rest, h⟩) => some (true, c :: inside, ⟨rest, by simp; omega⟩)
  | c :: cs1 =>
    match splitAtRBracket cs1 with
    | none => none
    | some (inside, ⟨rest, h⟩) => some (false, c :: inside, ⟨rest, by simp; omega⟩)

/-- Parse the contents of a class into ranges; `a-b` is a range (a `-` that is
the final character is a literal), any other character stands for itself. -/
def parseRanges : List Char → List (Char × Char)
  | [] => []
  | a :: '-' :: b :: rest => (a, b) :: parseRanges rest
  | a :: rest => (a, a) :: parseRanges rest

/-- Translate a glob pattern into tokens, following `fnmatch.translate`. -/
def parseGlob (cs : List Char) : List GlobTok :=
  match cs with
  | [] => []
  | '*' :: rest => .star :: parseGlob rest
  | '?' :: rest => .anyChar :: parseGlob rest
  | '[' :: rest =>
    match scanClass rest with
    | none => .lit '[' :: parseGlob rest
    | some (neg, stuff, ⟨rest', h⟩) => .cls neg (parseRanges stuff) :: parseGlob rest'
  | c :: rest => .lit c :: parseGlob rest
termination_by cs.length
decreasing_by all_goals simp <;> omega

/-- Match a token list against a name (anchored at both ends, as
`fnmatch.translate` produces a fully anchored regular expression). -/
def tokMatch : List GlobTok → List Char → Bool
  | [], [] => true
  | [], _ :: _ => false
  | .star :: ps, s =>
    tokMatch ps s ||
      (match s with
       | [] => false
       | _ :: s' => tokMatch (.star :: ps) s')
  | .anyChar :: _, [] => false
  | .anyChar :: ps, _ :: s => tokMatch ps s
  | .lit _ :: _, [] => false
  | .lit c :: ps, d :: s => c = d && tokMatch ps s
  | .cls _ _ :: _, [] => false
  | .cls neg rs :: ps, d :: s =>
    (neg != rs.any (fun r => r.1 ≤ d && d ≤ r.2)) && tokMatch ps s
termination_by ps s => ps.length + s.length
decreasing_by all_goals simp <;> omega

/-- `fnmatch.fnmatch(name, pat)` on POSIX. -/
def fnmatch (pat : String) (name : String) : Bool :=
  tokMatch (parseGlob pat.data) name.data

/-! ## Configuration and external environment

`Config` holds the constructor arguments of `FileConcatenatorThread`.
`include_extensions` is the set `self.text_file_extensions`, already
lower-cased by `__init__` (`set(ext.lower() for ext in include_extensions)`);
it is modelled as a list with `contains` membership. -/

structure Config where
  git_tracked : Bool
  directory_ignore_patterns : List String
  file_ignore_patterns : List String
  include_extensions : List String

/-- The two git subprocesses, as deterministic functions of their inputs.
`revParse d` models `git rev-parse --show-toplevel` run with `cwd = d`
(`none` = non-zero exit or timeout); `lsFiles r` models `git ls-files` run
with `cwd = r`, already split into the list of repository-relative paths. -/
structure GitEnv where
  revParse : Path → Option Path
  lsFiles : Path → Option (List String)

/-- The full external environment: git plus the text-file reader
(`open(file_path, 'r', encoding='utf-8').read()`; `.error reason` models any
exception raised while opening or reading). -/
structure Env where
  git : GitEnv
  readF : Path → Except String String

/-! ## Rule Evaluator (`is_included_file`, `is_ignored_file`) -/

/-- `is_included_file`: `_, ext = os.path.splitext(filepath);
return ext.lower() in self.text_file_extensions`. -/
def is_included_file (cfg : Config) (f : Path) : Bool :=
  cfg.include_extensions.contains (String.mk ((splitextExt (base f).data).map Char.toLower))

/-- `is_ignored_file`: the base name matches some pattern of
`self.file_ignore_patterns` under `fnmatch`. -/
def is_ignored_file (cfg : Config) (f : Path) : Bool :=
  cfg.file_ignore_patterns.any (fun pat => fnmatch pat (base f))

/-! ## VCS Resolver (`get_git_repo_root`, `is_git_tracked`)

The two caches are instance state of the thread object, fresh per run:
`self.repo_roots` (a dict keyed by the *queried file path*) and
`self.tracked_files_cache` (keyed by repository root).  The state also
carries two ghost counters recording how many times each external command
was invoked. -/

structure ResolverState where
  repo_roots : List (Path × Path)
  tracked_files_cache : List (Path × List String)
  revParseCalls : Nat
  lsFilesCalls : Nat
deriving DecidableEq

def initResolver : ResolverState := ⟨[], [], 0, 0⟩

/-- `os.path.relpath(path, start)` on POSIX, over segment lists: strip the
common segment prefix, prepend one `..` per remaining segment of `start`;
the empty result is `.`. -/
def commonPrefixLen : List String → List String → Nat
  | a :: as, b :: bs => if a = b then commonPrefixLen as bs + 1 else 0
  | _, _ => 0

def relpathSegs (path start : Path) : List String :=
  let i := commonPrefixLen start path
  let rel := List.replicate (start.length - i) ".." ++ path.drop i
  if rel.isEmpty then ["."] else rel

/-- `os.path.relpath` rendered back to a string (as compared against the
lines of `git ls-files` output). -/
def relString (f root : Path) : String :=
  String.intercalate "/" (relpathSegs f root)

/-- `get_git_repo_root`: cache lookup keyed by the queried file path; on a
miss, run `git rev-parse --show-toplevel` with `cwd = os.path.dirname(filepath)`;
a success is cached, a failure (non-zero exit or timeout) returns `None`
without caching. -/
def get_git_repo_root (env : GitEnv) (s : ResolverState) (filepath : Path) :
    Option Path × ResolverState :=
  match lookupA s.repo_roots filepath with
  | some root => (some root, s)
  | none =>
    let s1 := { s with revParseCalls := s.revParseCalls + 1 }
    match env.revParse filepath.dropLast with
    | some root =>
      (some root, { s1 with repo_roots := s1.repo_roots ++ [(filepath, root)] })
    | none => (none, s1)

/-- `is_git_tracked`: resolve the repo root (no root ⇒ untracked); consult the
per-repo tracked-set cache; on a miss run `git ls-files`, caching the set on
success; a failure (non-zero exit or timeout) reports untracked without
caching.  Membership is tested on `os.path.relpath(filepath, repo_root)`. -/
def is_git_tracked (env : GitEnv) (s : ResolverState) (filepath : Path) :
    Bool × ResolverState :=
  match get_git_repo_root env s filepath with
  | (none, s1) => (false, s1)
  | (some root, s1) =>
    match lookupA s1.tracked_files_cache root with
    | some tracked => (tracked.contains (relString filepath root), s1)
    | none =>
      let s2 := { s1 with lsFilesCalls := s1.lsFilesCalls + 1 }
      match env.lsFiles root with
      | none => (false, s2)
      | some tracked =>
        (tracked.contains (relString filepath root),
         { s2 with tracked_files_cache := s2.tracked_files_cache ++ [(root, tracked)] })

/-- The cache-free tracked answer: what `is_git_tracked` computes when every
needed value comes straight from the environment. -/
def pureTracked (env : GitEnv) (f : Path) : Bool :=
  match env.revParse f.dropLast with
  | none => false
  | some root =>
    match env.lsFiles root with
    | none => false
    | some tracked => tracked.contains (relString f root)

/-! ## Filesystem model and traversal (`run`, discovery phase)

A selected path is either a file or a directory with its subtree.  A
directory node lists its directly contained file names and subdirectories in
OS listing order, matching what one `os.walk` iteration yields. -/

mutual
inductive DirTree where
  | node : List String → SubForest → DirTree
inductive SubForest where
  | nil : SubForest
  | cons : String → DirTree → SubForest → SubForest
end

inductive RootSel where
  | fileSel : Path → RootSel
  | dirSel : Path → DirTree → RootSel

/-- Observation of the cancellation flag at flag check number `polls`. -/
def checkCancel (k : Option Nat) (polls : Nat) : Bool :=
  match k with
  | none => false
  | some j => j ≤ polls

/-- Discovery-phase state: resolver caches, number of flag checks performed
so far, and the `all_files` accumulator. -/
structure DState where
  rs : ResolverState
  polls : Nat
  acc : List Path
deriving DecidableEq

/-- Discovery-phase result: the state, plus whether the run returned early
because a flag check observed the cancellation. -/
structure DOut where
  st : DState
  cancelled : Bool
deriving DecidableEq

/-- The body applied to each candidate file (both the file-root branch and
the per-entry body inside `os.walk`): extension filter, ignore filter, and —
only when `git_tracked` is set — the tracked check; append on full pass. -/
def considerFile (cfg : Config) (env : Env) (f : Path) (st : DState) : DState :=
  if is_included_file cfg f && !is_ignored_file cfg f then
    if cfg.git_tracked then
      match is_git_tracked env.git st.rs f with
      | (tracked, rs') =>
        if tracked then { st with rs := rs', acc := st.acc ++ [f] }
        else { st with rs := rs' }
    else { st with acc := st.acc ++ [f] }
  else st

/-- The inner `for file in files` loop of one `os.walk` iteration: a flag
check before each file, then `considerFile`. -/
def walkFiles (cfg : Config) (env : Env) (k : Option Nat) (p : Path) :
    List String → DState → DOut
  | [], st => ⟨st, false⟩
  | name :: rest, st =>
    if checkCancel k st.polls then ⟨st, true⟩
    else
      walkFiles cfg env k p rest
        (considerFile cfg env (p ++ [name]) { st with polls := st.polls + 1 })

mutual
/-- One `os.walk(path, topdown=True)` iteration rooted at `p`: a flag check,
the file loop, then recursion into the subdirectories that survive
`dirs[:] = [d for d in dirs if d not in self.directory_ignore_patterns]`
(skipping a pruned name, done per element below, is equivalent to filtering
the list first — only the recursion consumes `dirs`). -/
def walkTree (cfg : Config) (env : Env) (k : Option Nat) (p : Path)
    (t : DirTree) (st : DState) : DOut :=
  match t with
  | .node files subs =>
    if checkCancel k st.polls then ⟨st, true⟩
    else
      match walkFiles cfg env k p files { st with polls := st.polls + 1 } with
      | ⟨st2, true⟩ => ⟨st2, true⟩
      | ⟨st2, false⟩ => walkSubs cfg env k p subs st2

/-- Recursion of `os.walk` into the pruned subdirectory list, in order. -/
def walkSubs (cfg : Config) (env : Env) (k : Option Nat) (p : Path)
    (subs : SubForest) (st : DState) : DOut :=
  match subs with
  | .nil => ⟨st, false⟩
  | .cons name t rest =>
    if cfg.directory_ignore_patterns.contains name then walkSubs cfg env k p rest st
    else
      match walkTree cfg env k (p ++ [name]) t st with
      | ⟨st1, true⟩ => ⟨st1, true⟩
      | ⟨st1, false⟩ => walkSubs cfg env k p rest st1
end

/-- The outer `for path in self.selected_paths` loop of `run`: a flag check
per root, then the file branch or the `os.walk` branch. -/
def discoverRoots (cfg : Config) (env : Env) (k : Option Nat) :
    List RootSel → DState → DOut
  | [], st => ⟨st, false⟩
  | r :: rest, st =>
    if checkCancel k st.polls then ⟨st, true⟩
    else
      let st1 : DState := { st with polls := st.polls + 1 }
      match r with
      | .fileSel p => discoverRoots cfg env k rest (considerFile cfg env p st1)
      | .dirSel p t =>
        match walkTree cfg env k p t st1 with
        | ⟨st2, true⟩ => ⟨st2, true⟩
        | ⟨st2, false⟩ => discoverRoots cfg env k rest st2

/-! ## Concatenation Executor (`run`, second phase) -/

/-- The per-file block appended on a successful read:
`"=== <basename> ===\n" + content + "\n\n"`. -/
def blockOf (f : Path) (content : String) : String :=
  "=== " ++ base f ++ " ===\n" ++ content ++ "\n\n"

/-- Round `num / den` to the nearest integer, ties to even (the IEEE 754
default rounding used by every CPython float operation). -/
def rndNE (num den : Nat) : Nat :=
  let q := num / den
  let r := num % den
  if 2 * r < den then q
  else if den < 2 * r then q + 1
  else if q % 2 = 0 then q else q + 1

/-- Least `k` with `total ≤ idx * 2^k` (so `2^(-k) ≤ idx/total < 2^(1-k)`
when `k` is least), by bounded search: for `idx ≥ 1`, `total` steps always
suffice because `total ≤ 2^total`. -/
def leastShiftAux (idx total : Nat) : Nat → Nat → Nat
  | 0, k => k
  | fuel + 1, k =>
    if total ≤ idx * 2 ^ k then k else leastShiftAux idx total fuel (k + 1)

def leastShift (idx total : Nat) : Nat := leastShiftAux idx total total 0

/-- The progress percentage `int((index / total) * 100)` exactly as CPython
computes it for `1 ≤ index ≤ total` (the only arguments the loop produces):

* `index / total` is true division, the exact rational correctly rounded to
  a binary64 significand of 53 bits (`m1 · 2^(-52-k)` with
  `m1 ∈ [2^52, 2^53)`, `2^(-k) ≤ index/total < 2^(1-k)`);
* `* 100` multiplies by the exactly representable `100.0` and rounds the
  exact product `m1 · 100 · 2^(-52-k)` back to 53 bits — `m1 · 100` lies in
  `[100·2^52, 200·2^52) ⊂ [2^58, 2^60)`, so its binade is decided by the
  single test against `2^59`;
* `int(...)` truncates toward zero.

Exponents are unbounded here: for `index ≤ total` the product lies in
`(0, 100]`, so no overflow is possible, and an `index/total` small enough to
round subnormally makes both the real result and its truncation 0, so the
truncated value agrees with CPython everywhere.  This is NOT, in general,
`index * 100 / total`: float rounding loses e.g. `int((29 / 50) * 100) = 57`
where the exact floor is 58. -/
def pyPercent (idx total : Nat) : Nat :=
  if idx = 0 || total = 0 then 0
  else
    let k := leastShift idx total
    let m1 := rndNE (idx * 2 ^ (52 + k)) total
    let mk : Nat × Nat := if m1 = 2 ^ 53 then (2 ^ 52, k - 1) else (m1, k)
    let c := mk.1 * 100
    let t := if c < 2 ^ 59 then 6 else 7
    let m2 := rndNE c (2 ^ t)
    let mt : Nat × Nat := if m2 = 2 ^ 53 then (2 ^ 52, t + 1) else (m2, t)
    if 52 + mk.2 ≤ mt.2 then mt.1 * 2 ^ (mt.2 - (52 + mk.2))
    else mt.1 / 2 ^ (52 + mk.2 - mt.2)

/-- Result of the `for index, file_path in enumerate(all_files, start=1)`
loop: running text, error list, emitted progress events `(percent, basename)`,
flag-check count, number of loop iterations completed, and whether a flag
check observed the cancellation. -/
structure CRes where
  text : String
  errors : List String
  progress : List (Nat × String)
  polls : Nat
  processed : Nat
  cancelled : Bool
deriving DecidableEq

/-- The concatenation loop: a flag check at the top of each iteration; on a
successful read append the block and emit a progress event with percentage
`int((index / total) * 100)` — computed in binary64 floating point, modelled
exactly by `pyPercent` — and the base name; on a failed read record
`"Error reading <path>: <reason>"` and `continue` — skipping the progress
event for that file. -/
def concatLoop (env : Env) (k : Option Nat) (total : Nat) :
    List Path → Nat → Nat → String → List String → List (Nat × String) → Nat → CRes
  | [], _, polls, text, errors, progress, processed =>
    ⟨text, errors, progress, polls, processed, false⟩
  | f :: rest, idx, polls, text, errors, progress, processed =>
    if checkCancel k polls then ⟨text, errors, progress, polls, processed, true⟩
    else
      match env.readF f with
      | .ok content =>
        concatLoop env k total rest (idx + 1) (polls + 1)
          (text ++ blockOf f content) errors
          (progress ++ [(pyPercent idx total, base f)]) (processed + 1)
      | .error reason =>
        concatLoop env k total rest (idx + 1) (polls + 1)
          text (errors ++ ["Error reading " ++ renderPath f ++ ": " ++ reason])
          progress (processed + 1)

/-! ## The whole run -/

/-- The terminal outcome of a run.  `errorMsg` models an `error_occurred`
emission followed by `return` (the source signals the no-files condition and
fatal errors through the same signal, distinguished by the message);
`success` models `finished_successfully.emit(concatenated_text, all_files,
error_list)`. -/
inductive Outcome where
  | cancelled : Outcome
  | errorMsg : String → Outcome
  | success : String → List Path → List String → Outcome
deriving DecidableEq

def noFilesMsg : String := "No files found based on the selected preferences."

/-- The observable result of one execution of `FileConcatenatorThread.run`.
`discovered` is the `all_files` accumulator at the moment the run ended
(also meaningful for cancelled runs), `resolver` the final cache state,
`processed` the number of completed concatenation-loop iterations. -/
structure RunResult where
  outcome : Outcome
  progress : List (Nat × String)
  discovered : List Path
  resolver : ResolverState
  processed : Nat
deriving DecidableEq

def initDState : DState := ⟨initResolver, 0, []⟩

/-- `FileConcatenatorThread.run`: discovery over the selected roots, the
empty check (`error_occurred` with `noFilesMsg` when nothing was found),
then the concatenation loop and the final `finished_successfully` emission. -/
def runModel (cfg : Config) (env : Env) (roots : List RootSel) (k : Option Nat) :
    RunResult :=
  let d := discoverRoots cfg env k roots initDState
  if d.cancelled then ⟨.cancelled, [], d.st.acc, d.st.rs, 0⟩
  else
    let files := d.st.acc
    if files.length = 0 then ⟨.errorMsg noFilesMsg, [], files, d.st.rs, 0⟩
    else
      let c := concatLoop env k files.length files 1 d.st.polls "" [] [] 0
      if c.cancelled then ⟨.cancelled, c.progress, files, d.st.rs, c.processed⟩
      else ⟨.success c.text files c.errors, c.progress, files, d.st.rs, c.processed⟩

/-! ## Pure characterisation of an uncancelled run

The following functions restate, without threading state, what the phases of
`run` compute when the flag is never set and the caches always agree with the
environment.  The correspondence with `runModel` is proved below. -/

/-- The full filter a candidate file must pass to be appended. -/
def keepFile (cfg : Config) (env : Env) (f : Path) : Bool :=
  is_included_file cfg f && !is_ignored_file cfg f &&
    (!cfg.git_tracked || pureTracked env.git f)

/-- The files contributed by the file loop of one `os.walk` iteration. -/
def filesKept (cfg : Config) (env : Env) (p : Path) (names : List String) : List Path :=
  (names.map (fun n => p ++ [n])).filter (keepFile cfg env)

mutual
/-- The files contributed by walking one directory subtree. -/
def walkP (cfg : Config) (env : Env) (p : Path) : DirTree → List Path
  | .node files subs => filesKept cfg env p files ++ walkPsubs cfg env p subs
/-- The files contributed by the pruned subdirectory list. -/
def walkPsubs (cfg : Config) (env : Env) (p : Path) : SubForest → List Path
  | .nil => []
  | .cons name t rest =>
    (if cfg.directory_ignore_patterns.contains name then []
     else walkP cfg env (p ++ [name]) t) ++ walkPsubs cfg env p rest
end

/-- The files contributed by one selected root. -/
def discoverRootP (cfg : Config) (env : Env) : RootSel → List Path
  | .fileSel p => if keepFile cfg env p then [p] else []
  | .dirSel p t => walkP cfg env p t

/-- The complete discovered file list, in discovery order. -/
def discoverP (cfg : Config) (env : Env) (roots : List RootSel) : List Path :=
  (roots.map (discoverRootP cfg env)).flatten

/-- The concatenated text produced from a file list: the block of every
successfully read file, in order; a failed read contributes nothing. -/
def textOf (env : Env) : List Path → String
  | [] => ""
  | f :: rest =>
    (match env.readF f with
     | .ok content => blockOf f content
     | .error _ => "") ++ textOf env rest

/-- The blocks of the successfully read files, in order. -/
def blocksOf (env : Env) (fs : List Path) : List String :=
  fs.filterMap (fun f =>
    match env.readF f with
    | .ok content => some (blockOf f content)
    | .error _ => none)

/-- The error list produced from a file list. -/
def errListOf (env : Env) (fs : List Path) : List String :=
  fs.filterMap (fun f =>
    match env.readF f with
    | .ok _ => none
    | .error reason => some ("Error reading " ++ renderPath f ++ ": " ++ reason))

/-- The progress events produced from a file list, `idx` being the 1-based
position of the first file: one event per successful read only, with the
binary64 percentage `pyPercent`. -/
def progListOf (env : Env) (total : Nat) : Nat → List Path → List (Nat × String)
  | _, [] => []
  | idx, f :: rest =>
    match env.readF f with
    | .ok _ => (pyPercent idx total, base f) :: progListOf env total (idx + 1) rest
    | .error _ => progListOf env total (idx + 1) rest

/-- Resolver-cache coherence: every cached binding agrees with the
environment.  Holds for the empty caches and is preserved by every resolver
call, because only successful command results are ever cached. -/
def Coh (env : GitEnv) (s : ResolverState) : Prop :=
  (∀ fp root, (fp, root) ∈ s.repo_roots → env.revParse fp.dropLast = some root) ∧
  (∀ root tracked, (root, tracked) ∈ s.tracked_files_cache →
    env.lsFiles root = some tracked)

/-- The invocation-counting invariant of claim C1 (amended): when the
external commands never fail, each counter equals the size of its cache and
the cache keys are pairwise distinct. -/
def CntInv (s : ResolverState) : Prop :=
  s.revParseCalls = s.repo_roots.length ∧ (s.repo_roots.map Prod.fst).Nodup ∧
  s.lsFilesCalls = s.tracked_files_cache.length ∧
  (s.tracked_files_cache.map Prod.fst).Nodup

/-- A discovered path contains an ignored directory name strictly above its
final segment (the reading of "file under an ignored directory" in C4). -/
def hasIgnoredAncestor (ignores : List String) (f : Path) : Bool :=
  f.dropLast.any (fun d => ignores.contains d)

/-! ## Claim C5: the two readings of the extension predicate -/

/-- Inclusion-by-extension exactly as claim C5 words it: the extension is the
substring of the final segment from its last `.` on (empty when there is no
dot), lower-cased, tested for membership. -/
def specIncludedByExtension (exts : List String) (f : Path) : Bool :=
  let seg := (base f).data
  let ext := match lastDotIdx seg with
    | none => []
    | some i => seg.drop i
  exts.contains (String.mk (ext.map Char.toLower))

/-- The amended reading: as claim C5, except that when every character of the
final segment before its last dot is itself a dot (in particular for names
like `.bashrc`), the extension is empty. -/
def amendedIncludedByExtension (exts : List String) (f : Path) : Bool :=
  let seg := (base f).data
  let ext := match lastDotIdx seg with
    | none => []
    | some i => if (seg.take i).all (fun c => c == '.') then [] else seg.drop i
  exts.contains (String.mk (ext.map Char.toLower))

/-! ## Manifest Builder (`ConcatenatorApp.generate_file_tree`)

The nested Python dict (`None` = file leaf, dict = directory) becomes
`FTree`; an entry maps a segment name to `none` (file) or a subtree
(directory). -/

inductive FTree where
  | node : List (String × Option FTree) → FTree

/-- One `for part in parts` loop of `generate_file_tree`, inserting a
relative path (as segments) into the entry list of a tree level.
`setdefault(part, {})` finds or appends a directory entry;
`current_level[parts[-1]] = None` writes the leaf.  The result is `none`
when the loop would crash: descending through a name already bound to a
file leaf makes the next iteration call `setdefault` on `None`
(`AttributeError`) or index `None` (`TypeError`), neither of which is caught
(the surrounding `except` only catches `ValueError`); an empty segment list
would crash on `parts[-1]`. -/
def insertParts : List String → List (String × Option FTree) →
    Option (List (String × Option FTree))
  | [], _ => none
  | [last], m => some (assocSet m last none)
  | part :: rest, m =>
    match lookupA m part with
    | some (some (FTree.node sub)) =>
      (insertParts rest sub).map (fun sub' => assocSet m part (some (FTree.node sub')))
    | some none => none
    | none =>
      (insertParts rest []).map (fun sub' => assocSet m part (some (FTree.node sub')))

/-- `generate_file_tree(files)` with root `self.selected_directory`: for each
file insert `os.path.relpath(file_path, rootPath).split(os.sep)` into the
tree.  Note: the source wraps the body in `try ... except ValueError`,
commented as the fallback `tree[os.path.basename(file_path)] = None` for
files not under the root; on POSIX `os.path.relpath` raises `ValueError`
only for an empty path, never for an out-of-root path, so for the paths
modelled here the fallback branch is unreachable and out-of-root files are
inserted under `..` segments instead. -/
def generate_file_tree (files : List Path) (rootPath : Path) : Option FTree :=
  (files.foldl
    (fun acc f => acc.bind (fun m => insertParts (relpathSegs f rootPath) m))
    (some [])).map FTree.node

/-- The top-level entry names of the built tree (for stating what the tree
looks like without deciding equality of whole trees). -/
def topKeys : Option FTree → List String
  | some (FTree.node m) => m.map Prod.fst
  | none => []

/-! ## Concrete instances used to exercise the theorems -/

/-- Two files of one repository, queried with tracking enabled. -/
def cfg1 : Config := ⟨true, [], [], [".py"]⟩
def env1 : Env :=
  ⟨⟨fun _ => some ["d"], fun _ => some ["a.py", "b.py"]⟩, fun _ => .ok "X"⟩
def roots1 : List RootSel := [.fileSel ["d", "a.py"], .fileSel ["d", "b.py"]]

/-- Two selected files, the second of which fails to read. -/
def cfg2 : Config := ⟨false, [], [], [".py"]⟩
def env2 : Env :=
  ⟨⟨fun _ => none, fun _ => none⟩,
   fun p => if p = ["b.py"] then .error "Permission denied" else .ok "A"⟩
def roots2 : List RootSel := [.fileSel ["a.py"], .fileSel ["b.py"]]

/-- Three selected files, the middle one unreadable. -/
def cfg3 : Config := ⟨false, [], [], [".py"]⟩
def env3 : Env :=
  ⟨⟨fun _ => none, fun _ => none⟩,
   fun p => if p = ["bad.py"] then .error "Permission denied" else .ok "ok"⟩
def roots3 : List RootSel := [.fileSel ["good.py"], .fileSel ["bad.py"], .fileSel ["last.py"]]

/-- A selected directory whose own name is in the directory-ignore set,
directly containing a matching file. -/
def cfg4 : Config := ⟨false, ["node_modules"], [], [".py"]⟩
def env4 : Env := ⟨⟨fun _ => none, fun _ => none⟩, fun _ => .ok "X"⟩
def roots4 : List RootSel := [.dirSel ["node_modules"] (.node ["a.py"] .nil)]

/-- A directory root with a matching file and an ignored subdirectory that
also contains a matching file. -/
def cfg4w : Config := ⟨false, ["node_modules"], [], [".py"]⟩
def env4w : Env := ⟨⟨fun _ => none, fun _ => none⟩, fun _ => .ok "X"⟩
def roots4w : List RootSel :=
  [.dirSel ["r"] (.node ["a.py"] (.cons "node_modules" (.node ["b.py"] .nil) .nil))]

/-- Two readable files and one unreadable one, for the output-shape claims. -/
def cfg8 : Config := ⟨false, [], [], [".py"]⟩
def env8 : Env :=
  ⟨⟨fun _ => none, fun _ => none⟩,
   fun p => if p = ["mid.py"] then .error "boom" else
            if p = ["a.py"] then .ok "alpha" else .ok "omega"⟩
def roots8 : List RootSel := [.fileSel ["a.py"], .fileSel ["mid.py"], .fileSel ["z.py"]]

/-- A request that discovers nothing. -/
def cfg9 : Config := ⟨false, [], [], [".py"]⟩
def env9 : Env := ⟨⟨fun _ => none, fun _ => none⟩, fun _ => .ok "X"⟩
def roots9 : List RootSel := [.fileSel ["readme.md"]]

/-- The same file reachable twice: once as a file root, once under a
directory root. -/
def cfg10 : Config := ⟨false, [], [], [".py"]⟩
def env10 : Env := ⟨⟨fun _ => none, fun _ => none⟩, fun _ => .ok "dup"⟩
def roots10 : List RootSel := [.fileSel ["r", "a.py"], .dirSel ["r"] (.node ["a.py"] .nil)]

/-! # Theorems -/

/-! ## Association lists -/

theorem lookupA_mem {α β : Type} [DecidableEq α] :
    ∀ (l : List (α × β)) (k : α) (v : β), lookupA l k = some v → (k, v) ∈ l := by
  intro l
  induction l with
  | nil => intro k v h; simp [lookupA] at h
  | cons kv rest ih =>
    intro k v h
    obtain ⟨a, b⟩ := kv
    unfold lookupA at h
    by_cases hk : a = k
    · subst hk
      simp at h
      simp [h]
    · simp [hk] at h
      exact List.mem_cons_of_mem _ (ih k v h)

theorem lookupA_none {α β : Type} [DecidableEq α] :
    ∀ (l : List (α × β)) (k : α), lookupA l k = none → k ∉ l.map Prod.fst := by
  intro l
  induction l with
  | nil => intro k _ h; simp at h
  | cons kv rest ih =>
    intro k h
    obtain ⟨a, b⟩ := kv
    unfold lookupA at h
    by_cases hk : a = k
    · simp [hk] at h
    · simp [hk] at h
      intro hc
      simp only [List.map_cons, List.mem_cons] at hc
      rcases hc with hc | hc
      · exact hk hc.symm
      · exact ih k h hc

/-! ## Strings -/

theorem string_foldl_append : ∀ (l : List String) (a : String),
    l.foldl (· ++ ·) a = a ++ String.join l := by
  intro l
  induction l with
  | nil => intro a; simp [String.join]
  | cons t rest ih =>
    intro a
    simp only [List.foldl_cons]
    rw [ih]
    have hj : String.join (t :: rest) = t ++ String.join rest := by
      show List.foldl (· ++ ·) "" (t :: rest) = _
      simp only [List.foldl_cons]
      rw [ih, String.empty_append]
    rw [hj, ← String.append_assoc]

theorem string_join_cons (s : String) (l : List String) :
    String.join (s :: l) = s ++ String.join l := by
  show List.foldl (· ++ ·) "" (s :: l) = _
  simp only [List.foldl_cons]
  rw [string_foldl_append, String.empty_append]

/-! ## Resolver: coherence and purity -/

theorem coh_init (env : GitEnv) : Coh env initResolver := by
  constructor
  · intro fp root h
    simp [initResolver] at h
  · intro root tracked h
    simp [initResolver] at h

theorem get_git_repo_root_coh (env : GitEnv) (s : ResolverState) (f : Path)
    (h : Coh env s) :
    (get_git_repo_root env s f).1 = env.revParse f.dropLast ∧
    Coh env (get_git_repo_root env s f).2 := by
  unfold get_git_repo_root
  cases hl : lookupA s.repo_roots f with
  | some root =>
    simp only [hl]
    exact ⟨(h.1 f root (lookupA_mem _ _ _ hl)).symm, h⟩
  | none =>
    simp only [hl]
    cases hr : env.revParse f.dropLast with
    | some root =>
      simp only [hr]
      refine ⟨by trivial, ?_, ?_⟩
      · intro fp r hmem
        simp at hmem
        rcases hmem with hmem | hmem
        · exact h.1 fp r hmem
        · rw [hmem.1, hmem.2]
          exact hr
      · intro root' tracked hmem
        exact h.2 root' tracked hmem
    | none =>
      simp only [hr]
      exact ⟨by trivial, h.1, h.2⟩

theorem is_git_tracked_pure (env : GitEnv) (s : ResolverState) (f : Path)
    (h : Coh env s) :
    (is_git_tracked env s f).1 = pureTracked env f ∧
    Coh env (is_git_tracked env s f).2 := by
  have hg := get_git_repo_root_coh env s f h
  unfold is_git_tracked pureTracked
  cases hgr : get_git_repo_root env s f with
  | mk rootOpt s1 =>
    rw [hgr] at hg
    simp only at hg
    cases rootOpt with
    | none =>
      simp only
      rw [← hg.1]
      exact ⟨rfl, hg.2⟩
    | some root =>
      rw [← hg.1]
      simp only
      cases hl : lookupA s1.tracked_files_cache root with
      | some tracked =>
        simp only
        have := hg.2.2 root tracked (lookupA_mem _ _ _ hl)
        rw [this]
        exact ⟨rfl, hg.2⟩
      | none =>
        simp only
        cases hls : env.lsFiles root with
        | none => exact ⟨by trivial, hg.2.1, hg.2.2⟩
        | some tracked =>
          simp only
          refine ⟨by trivial, hg.2.1, ?_⟩
          intro root' tracked' hmem
          simp at hmem
          rcases hmem with hmem | hmem
          · exact hg.2.2 root' tracked' hmem
          · rw [hmem.1, hmem.2]
            exact hls

/-! ## Discovery: the uncancelled run computes `discoverP` -/

theorem considerFile_spec (cfg : Config) (env : Env) (f : Path) (st : DState)
    (h : Coh env.git st.rs) :
    (considerFile cfg env f st).acc =
      st.acc ++ (if keepFile cfg env f then [f] else []) ∧
    Coh env.git (considerFile cfg env f st).rs ∧
    (considerFile cfg env f st).polls = st.polls := by
  unfold considerFile keepFile
  cases hb : (is_included_file cfg f && !is_ignored_file cfg f) with
  | false =>
    simp [hb]
    exact h
  | true =>
    cases hgit : cfg.git_tracked with
    | false =>
      simp [hb, hgit]
      exact h
    | true =>
      have hp := is_git_tracked_pure env.git st.rs f h
      cases ht : is_git_tracked env.git st.rs f with
      | mk tr rs' =>
        rw [ht] at hp
        simp only at hp
        cases htr : tr with
        | true =>
          rw [htr] at hp
          simp [hb, hgit, ← hp.1]
          exact hp.2
        | false =>
          rw [htr] at hp
          simp [hb, hgit, ← hp.1]
          exact hp.2

theorem filesKept_cons (cfg : Config) (env : Env) (p : Path) (name : String)
    (rest : List String) :
    filesKept cfg env p (name :: rest) =
      (if keepFile cfg env (p ++ [name]) then [p ++ [name]] else []) ++
        filesKept cfg env p rest := by
  simp only [filesKept, List.map_cons, List.filter_cons]
  cases keepFile cfg env (p ++ [name]) <;> simp

theorem walkFiles_none (cfg : Config) (env : Env) (p : Path) :
    ∀ (names : List String) (st : DState), Coh env.git st.rs →
      (walkFiles cfg env none p names st).cancelled = false ∧
      (walkFiles cfg env none p names st).st.acc =
        st.acc ++ filesKept cfg env p names ∧
      Coh env.git (walkFiles cfg env none p names st).st.rs := by
  intro names
  induction names with
  | nil =>
    intro st h
    simp [walkFiles, filesKept]
    exact h
  | cons name rest ih =>
    intro st h
    rw [show walkFiles cfg env none p (name :: rest) st =
        walkFiles cfg env none p rest
          (considerFile cfg env (p ++ [name]) { st with polls := st.polls + 1 }) from by
      simp [walkFiles, checkCancel]]
    have hc := considerFile_spec cfg env (p ++ [name])
      { st with polls := st.polls + 1 } h
    obtain ⟨hacc, hcoh, _⟩ := hc
    have hrest := ih _ hcoh
    refine ⟨hrest.1, ?_, hrest.2.2⟩
    rw [hrest.2.1, hacc, filesKept_cons]
    simp

mutual
theorem walkTree_none (cfg : Config) (env : Env) (p : Path) (t : DirTree) :
    ∀ st : DState, Coh env.git st.rs →
      (walkTree cfg env none p t st).cancelled = false ∧
      (walkTree cfg env none p t st).st.acc = st.acc ++ walkP cfg env p t ∧
      Coh env.git (walkTree cfg env none p t st).st.rs := by
  cases t with
  | node files subs =>
    intro st h
    rw [show walkTree cfg env none p (.node files subs) st =
        (match walkFiles cfg env none p files { st with polls := st.polls + 1 } with
         | ⟨st2, true⟩ => ⟨st2, true⟩
         | ⟨st2, false⟩ => walkSubs cfg env none p subs st2) from by
      simp [walkTree, checkCancel]]
    have hwf := walkFiles_none cfg env p files { st with polls := st.polls + 1 } h
    cases hw : walkFiles cfg env none p files { st with polls := st.polls + 1 } with
    | mk st2 c =>
      rw [hw] at hwf
      simp only at hwf
      rw [hwf.1]
      simp only
      have hsub := walkSubs_none cfg env p subs st2 hwf.2.2
      refine ⟨hsub.1, ?_, hsub.2.2⟩
      rw [hsub.2.1, hwf.2.1]
      simp [walkP]

theorem walkSubs_none (cfg : Config) (env : Env) (p : Path) (subs : SubForest) :
    ∀ st : DState, Coh env.git st.rs →
      (walkSubs cfg env none p subs st).cancelled = false ∧
      (walkSubs cfg env none p subs st).st.acc =
        st.acc ++ walkPsubs cfg env p subs ∧
      Coh env.git (walkSubs cfg env none p subs st).st.rs := by
  cases subs with
  | nil =>
    intro st h
    simp [walkSubs, walkPsubs]
    exact h
  | cons name t rest =>
    intro st h
    cases hig : cfg.directory_ignore_patterns.contains name with
    | true =>
      have hig' : name ∈ cfg.directory_ignore_patterns := by simpa using hig
      rw [show walkSubs cfg env none p (.cons name t rest) st =
          walkSubs cfg env none p rest st from by simp [walkSubs, hig']]
      have hrest := walkSubs_none cfg env p rest st h
      refine ⟨hrest.1, ?_, hrest.2.2⟩
      rw [hrest.2.1]
      simp [walkPsubs, hig']
    | false =>
      have hig' : name ∉ cfg.directory_ignore_patterns := by simpa using hig
      rw [show walkSubs cfg env none p (.cons name t rest) st =
          (match walkTree cfg env none (p ++ [name]) t st with
           | ⟨st1, true⟩ => ⟨st1, true⟩
           | ⟨st1, false⟩ => walkSubs cfg env none p rest st1) from by
        simp [walkSubs, hig']]
      have hwt := walkTree_none cfg env (p ++ [name]) t st h
      cases hw : walkTree cfg env none (p ++ [name]) t st with
      | mk st1 c =>
        rw [hw] at hwt
        simp only at hwt
        rw [hwt.1]
        simp only
        have hrest := walkSubs_none cfg env p rest st1 hwt.2.2
        refine ⟨hrest.1, ?_, hrest.2.2⟩
        rw [hrest.2.1, hwt.2.1]
        simp [walkPsubs, hig']
end

theorem discoverRoots_none (cfg : Config) (env : Env) :
    ∀ (roots : List RootSel) (st : DState), Coh env.git st.rs →
      (discoverRoots cfg env none roots st).cancelled = false ∧
      (discoverRoots cfg env none roots st).st.acc =
        st.acc ++ discoverP cfg env roots ∧
      Coh env.git (discoverRoots cfg env none roots st).st.rs := by
  intro roots
  induction roots with
  | nil =>
    intro st h
    simp [discoverRoots, discoverP]
    exact h
  | cons r rest ih =>
    intro st h
    cases r with
    | fileSel p =>
      rw [show discoverRoots cfg env none (.fileSel p :: rest) st =
          discoverRoots cfg env none rest
            (considerFile cfg env p { st with polls := st.polls + 1 }) from by
        simp [discoverRoots, checkCancel]]
      have hc := considerFile_spec cfg env p { st with polls := st.polls + 1 } h
      obtain ⟨hacc, hcoh, _⟩ := hc
      have hrest := ih _ hcoh
      refine ⟨hrest.1, ?_, hrest.2.2⟩
      rw [hrest.2.1, hacc]
      simp [discoverP, discoverRootP]
    | dirSel p t =>
      rw [show discoverRoots cfg env none (.dirSel p t :: rest) st =
          (match walkTree cfg env none p t { st with polls := st.polls + 1 } with
           | ⟨st2, true⟩ => ⟨st2, true⟩
           | ⟨st2, false⟩ => discoverRoots cfg env none rest st2) from by
        simp [discoverRoots, checkCancel]]
      have hwt := walkTree_none cfg env p t { st with polls := st.polls + 1 } h
      cases hw : walkTree cfg env none p t { st with polls := st.polls + 1 } with
      | mk st2 c =>
        rw [hw] at hwt
        simp only at hwt
        rw [hwt.1]
        simp only
        have hrest := ih _ hwt.2.2
        refine ⟨hrest.1, ?_, hrest.2.2⟩
        rw [hrest.2.1, hwt.2.1]
        simp [discoverP, discoverRootP]

/-! ## Concatenation: the uncancelled loop -/

theorem concatLoop_none (env : Env) (total : Nat) :
    ∀ (fs : List Path) (idx polls : Nat) (text : String) (errors : List String)
      (progress : List (Nat × String)) (processed : Nat),
      concatLoop env none total fs idx polls text errors progress processed =
        ⟨text ++ textOf env fs, errors ++ errListOf env fs,
         progress ++ progListOf env total idx fs, polls + fs.length,
         processed + fs.length, false⟩ := by
  intro fs
  induction fs with
  | nil =>
    intro idx polls text errors progress processed
    simp [concatLoop, textOf, errListOf, progListOf, String.append_empty]
  | cons f rest ih =>
    intro idx polls text errors progress processed
    cases hr : env.readF f with
    | ok content =>
      rw [show concatLoop env none total (f :: rest) idx polls text errors progress processed =
          concatLoop env none total rest (idx + 1) (polls + 1)
            (text ++ blockOf f content) errors
            (progress ++ [(pyPercent idx total, base f)]) (processed + 1) from by
        simp [concatLoop, checkCancel, hr]]
      rw [ih]
      simp [textOf, errListOf, progListOf, hr, String.append_assoc]
      omega
    | error reason =>
      rw [show concatLoop env none total (f :: rest) idx polls text errors progress processed =
          concatLoop env none total rest (idx + 1) (polls + 1)
            text (errors ++ ["Error reading " ++ renderPath f ++ ": " ++ reason])
            progress (processed + 1) from by
        simp [concatLoop, checkCancel, hr]]
      rw [ih]
      simp [textOf, errListOf, progListOf, hr]
      omega

/-! ## The uncancelled run, end to end -/

theorem runModel_none_spec (cfg : Config) (env : Env) (roots : List RootSel) :
    (runModel cfg env roots none).discovered = discoverP cfg env roots ∧
    (discoverP cfg env roots = [] →
      (runModel cfg env roots none).outcome = .errorMsg noFilesMsg ∧
      (runModel cfg env roots none).progress = [] ∧
      (runModel cfg env roots none).processed = 0) ∧
    (discoverP cfg env roots ≠ [] →
      (runModel cfg env roots none).outcome =
        .success (textOf env (discoverP cfg env roots)) (discoverP cfg env roots)
          (errListOf env (discoverP cfg env roots)) ∧
      (runModel cfg env roots none).progress =
        progListOf env (discoverP cfg env roots).length 1 (discoverP cfg env roots) ∧
      (runModel cfg env roots none).processed = (discoverP cfg env roots).length) := by
  have hd := discoverRoots_none cfg env roots initDState (coh_init env.git)
  unfold runModel
  cases hdd : discoverRoots cfg env none roots initDState with
  | mk dst c =>
    rw [hdd] at hd
    simp only at hd
    rw [hd.1]
    have hacc : dst.acc = discoverP cfg env roots := by
      have := hd.2.1
      simpa [initDState] using this
    simp only [hacc]
    by_cases hemp : discoverP cfg env roots = []
    · simp [hemp, noFilesMsg]
    · have hlen : (discoverP cfg env roots).length ≠ 0 := by
        simpa using hemp
      rw [if_neg (by simpa using hemp)]
      rw [concatLoop_none]
      simp only [String.empty_append, List.nil_append]
      simp [hemp]

/-! ## Resolver-state preservation through a whole run (any cancellation) -/

theorem nodup_append_single {α : Type} (l : List α) (a : α)
    (h : l.Nodup) (ha : a ∉ l) : (l ++ [a]).Nodup := by
  simp [List.nodup_append, h, ha]

theorem considerFile_preserve (P : ResolverState → Prop) (cfg : Config) (env : Env)
    (hstep : ∀ s f, P s → P ((is_git_tracked env.git s f).2)) (f : Path)
    (st : DState) (h : P st.rs) : P ((considerFile cfg env f st).rs) := by
  unfold considerFile
  cases hb : (is_included_file cfg f && !is_ignored_file cfg f) with
  | false => simpa [hb]
  | true =>
    cases hgit : cfg.git_tracked with
    | false => simpa [hb, hgit]
    | true =>
      cases ht : is_git_tracked env.git st.rs f with
      | mk tr rs' =>
        have hs := hstep st.rs f h
        rw [ht] at hs
        cases tr <;> simp [hb, hgit, ht] <;> exact hs

theorem walkFiles_preserve (P : ResolverState → Prop) (cfg : Config) (env : Env)
    (k : Option Nat) (p : Path)
    (hstep : ∀ s f, P s → P ((is_git_tracked env.git s f).2)) :
    ∀ (names : List String) (st : DState), P st.rs →
      P ((walkFiles cfg env k p names st).st.rs) := by
  intro names
  induction names with
  | nil => intro st h; simpa [walkFiles]
  | cons name rest ih =>
    intro st h
    cases hcc : checkCancel k st.polls with
    | true => simpa [walkFiles, hcc]
    | false =>
      simp only [walkFiles, hcc]
      simp only [Bool.false_eq_true, if_false]
      exact ih _ (considerFile_preserve P cfg env hstep _ _ h)

mutual
theorem walkTree_preserve (P : ResolverState → Prop) (cfg : Config) (env : Env)
    (k : Option Nat) (p : Path)
    (hstep : ∀ s f, P s → P ((is_git_tracked env.git s f).2)) (t : DirTree) :
    ∀ st : DState, P st.rs → P ((walkTree cfg env k p t st).st.rs) := by
  cases t with
  | node files subs =>
    intro st h
    cases hcc : checkCancel k st.polls with
    | true => simpa [walkTree, hcc]
    | false =>
      simp only [walkTree, hcc, Bool.false_eq_true, if_false]
      have h2 := walkFiles_preserve P cfg env k p hstep files
        { st with polls := st.polls + 1 } h
      cases hw : walkFiles cfg env k p files { st with polls := st.polls + 1 } with
      | mk st2 c =>
        rw [hw] at h2
        cases c with
        | true => simpa using h2
        | false =>
          simp only
          exact walkSubs_preserve P cfg env k p hstep subs st2 h2

theorem walkSubs_preserve (P : ResolverState → Prop) (cfg : Config) (env : Env)
    (k : Option Nat) (p : Path)
    (hstep : ∀ s f, P s → P ((is_git_tracked env.git s f).2)) (subs : SubForest) :
    ∀ st : DState, P st.rs → P ((walkSubs cfg env k p subs st).st.rs) := by
  cases subs with
  | nil => intro st h; simpa [walkSubs]
  | cons name t rest =>
    intro st h
    cases hig : cfg.directory_ignore_patterns.contains name with
    | true =>
      have hig' : name ∈ cfg.directory_ignore_patterns := by simpa using hig
      rw [show walkSubs cfg env k p (.cons name t rest) st =
          walkSubs cfg env k p rest st from by simp [walkSubs, hig']]
      exact walkSubs_preserve P cfg env k p hstep rest st h
    | false =>
      have hig' : name ∉ cfg.directory_ignore_patterns := by simpa using hig
      rw [show walkSubs cfg env k p (.cons name t rest) st =
          (match walkTree cfg env k (p ++ [name]) t st with
           | ⟨st1, true⟩ => ⟨st1, true⟩
           | ⟨st1, false⟩ => walkSubs cfg env k p rest st1) from by
        simp [walkSubs, hig']]
      have h1 := walkTree_preserve P cfg env k (p ++ [name]) hstep t st h
      cases hw : walkTree cfg env k (p ++ [name]) t st with
      | mk st1 c =>
        rw [hw] at h1
        cases c with
        | true => simpa using h1
        | false =>
          simp only
          exact walkSubs_preserve P cfg env k p hstep rest st1 h1
end

theorem discoverRoots_preserve (P : ResolverState → Prop) (cfg : Config) (env : Env)
    (k : Option Nat)
    (hstep : ∀ s f, P s → P ((is_git_tracked env.git s f).2)) :
    ∀ (roots : List RootSel) (st : DState), P st.rs →
      P ((discoverRoots cfg env k roots st).st.rs) := by
  intro roots
  induction roots with
  | nil => intro st h; simpa [discoverRoots]
  | cons r rest ih =>
    intro st h
    cases hcc : checkCancel k st.polls with
    | true => simpa [discoverRoots, hcc]
    | false =>
      cases r with
      | fileSel p =>
        simp only [discoverRoots, hcc, Bool.false_eq_true, if_false]
        exact ih _ (considerFile_preserve P cfg env hstep _ _ h)
      | dirSel p t =>
        simp only [discoverRoots, hcc, Bool.false_eq_true, if_false]
        have h1 := walkTree_preserve P cfg env k p hstep t
          { st with polls := st.polls + 1 } h
        cases hw : walkTree cfg env k p t { st with polls := st.polls + 1 } with
        | mk st2 c =>
          rw [hw] at h1
          cases c with
          | true => simpa using h1
          | false =>
            simp only
            exact ih st2 h1

theorem runModel_resolver (cfg : Config) (env : Env) (roots : List RootSel)
    (k : Option Nat) :
    (runModel cfg env roots k).resolver =
      (discoverRoots cfg env k roots initDState).st.rs := by
  unfold runModel
  cases hdd : discoverRoots cfg env k roots initDState with
  | mk dst c =>
    cases c with
    | true => simp
    | false =>
      simp only
      by_cases hL : dst.acc.length = 0
      · simp [hL]
      · simp only [hL, if_false]
        cases (concatLoop env k dst.acc.length dst.acc 1 dst.polls "" [] [] 0).cancelled <;>
          simp

/-! ## The C1 counting invariant -/

theorem cnt_step (env : GitEnv)
    (hrev : ∀ p, (env.revParse p).isSome)
    (hls : ∀ p, (env.lsFiles p).isSome) :
    ∀ (s : ResolverState) (f : Path), CntInv s → CntInv ((is_git_tracked env s f).2) := by
  intro s f h
  obtain ⟨h1, h2, h3, h4⟩ := h
  unfold is_git_tracked get_git_repo_root
  cases hl : lookupA s.repo_roots f with
  | some root =>
    simp only [hl]
    cases hl2 : lookupA s.tracked_files_cache root with
    | some tracked => exact ⟨h1, h2, h3, h4⟩
    | none =>
      cases hlf : env.lsFiles root with
      | none => have := hls root; rw [hlf] at this; simp at this
      | some tracked =>
        simp only [hl2, hlf]
        refine ⟨h1, h2, by simp [h3], ?_⟩
        rw [List.map_append]
        exact nodup_append_single _ _ h4 (lookupA_none _ _ hl2)
  | none =>
    simp only [hl]
    cases hrp : env.revParse f.dropLast with
    | none => have := hrev f.dropLast; rw [hrp] at this; simp at this
    | some root =>
      simp only [hrp]
      have h2' : ((s.repo_roots ++ [(f, root)]).map Prod.fst).Nodup := by
        rw [List.map_append]
        exact nodup_append_single _ _ h2 (lookupA_none _ _ hl)
      cases hl2 : lookupA s.tracked_files_cache root with
      | some tracked =>
        simp only [hl2]
        exact ⟨by simp [h1], h2', h3, h4⟩
      | none =>
        cases hlf : env.lsFiles root with
        | none => have := hls root; rw [hlf] at this; simp at this
        | some tracked =>
          simp only [hl2, hlf]
          refine ⟨by simp [h1], h2', by simp [h3], ?_⟩
          rw [List.map_append]
          exact nodup_append_single _ _ h4 (lookupA_none _ _ hl2)

theorem runModel_cnt (cfg : Config) (env : Env) (roots : List RootSel) (k : Option Nat)
    (hrev : ∀ p, (env.git.revParse p).isSome)
    (hls : ∀ p, (env.git.lsFiles p).isSome) :
    CntInv ((runModel cfg env roots k).resolver) := by
  rw [runModel_resolver]
  exact discoverRoots_preserve CntInv cfg env k (cnt_step env.git hrev hls) roots
    initDState ⟨rfl, by simp [initDState, initResolver], rfl, by simp [initDState, initResolver]⟩

/-! ## Cancellation: the flagged run simulates the unflagged one -/

theorem considerFile_coh (cfg : Config) (env : Env) (f : Path) (st : DState)
    (h : Coh env.git st.rs) : Coh env.git (considerFile cfg env f st).rs :=
  (considerFile_spec cfg env f st h).2.1

theorem walkFiles_sim (cfg : Config) (env : Env) (p : Path) (j : Nat) :
    ∀ (names : List String) (st : DState), Coh env.git st.rs →
      walkFiles cfg env (some j) p names st = walkFiles cfg env none p names st ∨
      ((walkFiles cfg env (some j) p names st).cancelled = true ∧
       ∃ d, (walkFiles cfg env none p names st).st.acc =
         (walkFiles cfg env (some j) p names st).st.acc ++ d) := by
  intro names
  induction names with
  | nil =>
    intro st h
    left
    simp [walkFiles]
  | cons name rest ih =>
    intro st h
    cases hcc : checkCancel (some j) st.polls with
    | true =>
      right
      have hsome : walkFiles cfg env (some j) p (name :: rest) st = ⟨st, true⟩ := by
        simp [walkFiles, hcc]
      have hn := walkFiles_none cfg env p (name :: rest) st h
      rw [hsome]
      exact ⟨rfl, filesKept cfg env p (name :: rest), hn.2.1⟩
    | false =>
      have hcc0 : checkCancel none st.polls = false := by simp [checkCancel]
      rw [show walkFiles cfg env (some j) p (name :: rest) st =
          walkFiles cfg env (some j) p rest
            (considerFile cfg env (p ++ [name]) { st with polls := st.polls + 1 }) from by
            simp [walkFiles, hcc],
        show walkFiles cfg env none p (name :: rest) st =
          walkFiles cfg env none p rest
            (considerFile cfg env (p ++ [name]) { st with polls := st.polls + 1 }) from by
            simp [walkFiles, hcc0]]
      exact ih _ (considerFile_coh cfg env _ _ h)

mutual
theorem walkTree_sim (cfg : Config) (env : Env) (j : Nat) (p : Path) (t : DirTree) :
    ∀ st : DState, Coh env.git st.rs →
      walkTree cfg env (some j) p t st = walkTree cfg env none p t st ∨
      ((walkTree cfg env (some j) p t st).cancelled = true ∧
       ∃ d, (walkTree cfg env none p t st).st.acc =
         (walkTree cfg env (some j) p t st).st.acc ++ d) := by
  cases t with
  | node files subs =>
    intro st h
    cases hcc : checkCancel (some j) st.polls with
    | true =>
      right
      have hsome : walkTree cfg env (some j) p (.node files subs) st = ⟨st, true⟩ := by
        simp [walkTree, hcc]
      have hn := walkTree_none cfg env p (.node files subs) st h
      rw [hsome]
      exact ⟨rfl, walkP cfg env p (.node files subs), hn.2.1⟩
    | false =>
      have hcc0 : checkCancel none st.polls = false := by simp [checkCancel]
      rw [show walkTree cfg env (some j) p (.node files subs) st =
          (match walkFiles cfg env (some j) p files { st with polls := st.polls + 1 } with
           | ⟨st2, true⟩ => ⟨st2, true⟩
           | ⟨st2, false⟩ => walkSubs cfg env (some j) p subs st2) from by
            simp [walkTree, hcc],
        show walkTree cfg env none p (.node files subs) st =
          (match walkFiles cfg env none p files { st with polls := st.polls + 1 } with
           | ⟨st2, true⟩ => ⟨st2, true⟩
           | ⟨st2, false⟩ => walkSubs cfg env none p subs st2) from by
            simp [walkTree, hcc0]]
      have hwf := walkFiles_none cfg env p files { st with polls := st.polls + 1 } h
      rcases walkFiles_sim cfg env p j files { st with polls := st.polls + 1 } h with
        heq | hcanc
      · rw [heq]
        cases hw : walkFiles cfg env none p files { st with polls := st.polls + 1 } with
        | mk st2 c =>
          rw [hw] at hwf
          simp only at hwf
          rw [hwf.1]
          simp only
          rcases walkSubs_sim cfg env j p subs st2 hwf.2.2 with hseq | hscanc
          · left; exact hseq
          · right; exact hscanc
      · cases hw : walkFiles cfg env (some j) p files { st with polls := st.polls + 1 } with
        | mk stx cx =>
          rw [hw] at hcanc
          simp only at hcanc
          rw [hcanc.1]
          simp only
          right
          refine ⟨by trivial, ?_⟩
          cases hwn : walkFiles cfg env none p files { st with polls := st.polls + 1 } with
          | mk st2 c =>
            rw [hwn] at hwf
            simp only at hwf
            rw [hwf.1]
            simp only
            obtain ⟨d1, hd1⟩ := hcanc.2
            rw [hwn] at hd1
            simp only at hd1
            have hsub := walkSubs_none cfg env p subs st2 hwf.2.2
            exact ⟨d1 ++ walkPsubs cfg env p subs, by
              rw [hsub.2.1, hd1]
              simp⟩

theorem walkSubs_sim (cfg : Config) (env : Env) (j : Nat) (p : Path) (subs : SubForest) :
    ∀ st : DState, Coh env.git st.rs →
      walkSubs cfg env (some j) p subs st = walkSubs cfg env none p subs st ∨
      ((walkSubs cfg env (some j) p subs st).cancelled = true ∧
       ∃ d, (walkSubs cfg env none p subs st).st.acc =
         (walkSubs cfg env (some j) p subs st).st.acc ++ d) := by
  cases subs with
  | nil =>
    intro st h
    left
    simp [walkSubs]
  | cons name t rest =>
    intro st h
    cases hig : cfg.directory_ignore_patterns.contains name with
    | true =>
      have hig' : name ∈ cfg.directory_ignore_patterns := by simpa using hig
      rw [show walkSubs cfg env (some j) p (.cons name t rest) st =
          walkSubs cfg env (some j) p rest st from by simp [walkSubs, hig'],
        show walkSubs cfg env none p (.cons name t rest) st =
          walkSubs cfg env none p rest st from by simp [walkSubs, hig']]
      exact walkSubs_sim cfg env j p rest st h
    | false =>
      have hig' : name ∉ cfg.directory_ignore_patterns := by simpa using hig
      rw [show walkSubs cfg env (some j) p (.cons name t rest) st =
          (match walkTree cfg env (some j) (p ++ [name]) t st with
           | ⟨st1, true⟩ => ⟨st1, true⟩
           | ⟨st1, false⟩ => walkSubs cfg env (some j) p rest st1) from by
            simp [walkSubs, hig'],
        show walkSubs cfg env none p (.cons name t rest) st =
          (match walkTree cfg env none (p ++ [name]) t st with
           | ⟨st1, true⟩ => ⟨st1, true⟩
           | ⟨st1, false⟩ => walkSubs cfg env none p rest st1) from by
            simp [walkSubs, hig']]
      have hwt := walkTree_none cfg env (p ++ [name]) t st h
      rcases walkTree_sim cfg env j (p ++ [name]) t st h with heq | hcanc
      · rw [heq]
        cases hw : walkTree cfg env none (p ++ [name]) t st with
        | mk st1 c =>
          rw [hw] at hwt
          simp only at hwt
          rw [hwt.1]
          simp only
          rcases walkSubs_sim cfg env j p rest st1 hwt.2.2 with hseq | hscanc
          · left; exact hseq
          · right; exact hscanc
      · cases hw : walkTree cfg env (some j) (p ++ [name]) t st with
        | mk stx cx =>
          rw [hw] at hcanc
          simp only at hcanc
          rw [hcanc.1]
          simp only
          right
          refine ⟨by trivial, ?_⟩
          cases hwn : walkTree cfg env none (p ++ [name]) t st with
          | mk st1 c =>
            rw [hwn] at hwt
            simp only at hwt
            rw [hwt.1]
            simp only
            obtain ⟨d1, hd1⟩ := hcanc.2
            rw [hwn] at hd1
            simp only at hd1
            have hsub := walkSubs_none cfg env p rest st1 hwt.2.2
            exact ⟨d1 ++ walkPsubs cfg env p rest, by
              rw [hsub.2.1, hd1]
              simp⟩
end

theorem discoverRoots_sim (cfg : Config) (env : Env) (j : Nat) :
    ∀ (roots : List RootSel) (st : DState), Coh env.git st.rs →
      discoverRoots cfg env (some j) roots st = discoverRoots cfg env none roots st ∨
      ((discoverRoots cfg env (some j) roots st).cancelled = true ∧
       ∃ d, (discoverRoots cfg env none roots st).st.acc =
         (discoverRoots cfg env (some j) roots st).st.acc ++ d) := by
  intro roots
  induction roots with
  | nil =>
    intro st h
    left
    simp [discoverRoots]
  | cons r rest ih =>
    intro st h
    cases hcc : checkCancel (some j) st.polls with
    | true =>
      right
      have hsome : discoverRoots cfg env (some j) (r :: rest) st = ⟨st, true⟩ := by
        simp [discoverRoots, hcc]
      have hn := discoverRoots_none cfg env (r :: rest) st h
      rw [hsome]
      exact ⟨rfl, discoverP cfg env (r :: rest), hn.2.1⟩
    | false =>
      have hcc0 : checkCancel none st.polls = false := by simp [checkCancel]
      cases r with
      | fileSel p =>
        rw [show discoverRoots cfg env (some j) (.fileSel p :: rest) st =
            discoverRoots cfg env (some j) rest
              (considerFile cfg env p { st with polls := st.polls + 1 }) from by
              simp [discoverRoots, hcc],
          show discoverRoots cfg env none (.fileSel p :: rest) st =
            discoverRoots cfg env none rest
              (considerFile cfg env p { st with polls := st.polls + 1 }) from by
              simp [discoverRoots, hcc0]]
        exact ih _ (considerFile_coh cfg env _ _ h)
      | dirSel p t =>
        rw [show discoverRoots cfg env (some j) (.dirSel p t :: rest) st =
            (match walkTree cfg env (some j) p t { st with polls := st.polls + 1 } with
             | ⟨st2, true⟩ => ⟨st2, true⟩
             | ⟨st2, false⟩ => discoverRoots cfg env (some j) rest st2) from by
              simp [discoverRoots, hcc],
          show discoverRoots cfg env none (.dirSel p t :: rest) st =
            (match walkTree cfg env none p t { st with polls := st.polls + 1 } with
             | ⟨st2, true⟩ => ⟨st2, true⟩
             | ⟨st2, false⟩ => discoverRoots cfg env none rest st2) from by
              simp [discoverRoots, hcc0]]
        have hwt := walkTree_none cfg env p t { st with polls := st.polls + 1 } h
        rcases walkTree_sim cfg env j p t { st with polls := st.polls + 1 } h with
          heq | hcanc
        · rw [heq]
          cases hw : walkTree cfg env none p t { st with polls := st.polls + 1 } with
          | mk st2 c =>
            rw [hw] at hwt
            simp only at hwt
            rw [hwt.1]
            simp only
            rcases ih st2 hwt.2.2 with hseq | hscanc
            · left; exact hseq
            · right; exact hscanc
        · cases hw : walkTree cfg env (some j) p t { st with polls := st.polls + 1 } with
          | mk stx cx =>
            rw [hw] at hcanc
            simp only at hcanc
            rw [hcanc.1]
            simp only
            right
            refine ⟨by trivial, ?_⟩
            cases hwn : walkTree cfg env none p t { st with polls := st.polls + 1 } with
            | mk st2 c =>
              rw [hwn] at hwt
              simp only at hwt
              rw [hwt.1]
              simp only
              obtain ⟨d1, hd1⟩ := hcanc.2
              rw [hwn] at hd1
              simp only at hd1
              have hrest := discoverRoots_none cfg env rest st2 hwt.2.2
              exact ⟨d1 ++ discoverP cfg env rest, by
                rw [hrest.2.1, hd1]
                simp⟩

theorem concatLoop_sim (env : Env) (total j : Nat) :
    ∀ (fs : List Path) (idx polls : Nat) (text : String) (errors : List String)
      (progress : List (Nat × String)) (processed : Nat),
      concatLoop env (some j) total fs idx polls text errors progress processed =
        concatLoop env none total fs idx polls text errors progress processed ∨
      ((concatLoop env (some j) total fs idx polls text errors progress processed).cancelled
          = true ∧
       ∃ d, (concatLoop env none total fs idx polls text errors progress processed).progress =
         (concatLoop env (some j) total fs idx polls text errors progress processed).progress
           ++ d) := by
  intro fs
  induction fs with
  | nil =>
    intro idx polls text errors progress processed
    left
    simp [concatLoop]
  | cons f rest ih =>
    intro idx polls text errors progress processed
    cases hcc : checkCancel (some j) polls with
    | true =>
      right
      have hsome : concatLoop env (some j) total (f :: rest) idx polls text errors
          progress processed = ⟨text, errors, progress, polls, processed, true⟩ := by
        simp [concatLoop, hcc]
      rw [hsome, concatLoop_none]
      exact ⟨rfl, progListOf env total idx (f :: rest), rfl⟩
    | false =>
      have hcc0 : checkCancel none polls = false := by simp [checkCancel]
      cases hr : env.readF f with
      | ok content =>
        rw [show concatLoop env (some j) total (f :: rest) idx polls text errors
              progress processed =
            concatLoop env (some j) total rest (idx + 1) (polls + 1)
              (text ++ blockOf f content) errors
              (progress ++ [(pyPercent idx total, base f)]) (processed + 1) from by
              simp [concatLoop, hcc, hr],
          show concatLoop env none total (f :: rest) idx polls text errors
              progress processed =
            concatLoop env none total rest (idx + 1) (polls + 1)
              (text ++ blockOf f content) errors
              (progress ++ [(pyPercent idx total, base f)]) (processed + 1) from by
              simp [concatLoop, hcc0, hr]]
        exact ih (idx + 1) (polls + 1) _ _ _ _
      | error reason =>
        rw [show concatLoop env (some j) total (f :: rest) idx polls text errors
              progress processed =
            concatLoop env (some j) total rest (idx + 1) (polls + 1)
              text (errors ++ ["Error reading " ++ renderPath f ++ ": " ++ reason])
              progress (processed + 1) from by
              simp [concatLoop, hcc, hr],
          show concatLoop env none total (f :: rest) idx polls text errors
              progress processed =
            concatLoop env none total rest (idx + 1) (polls + 1)
              text (errors ++ ["Error reading " ++ renderPath f ++ ": " ++ reason])
              progress (processed + 1) from by
              simp [concatLoop, hcc0, hr]]
        exact ih (idx + 1) (polls + 1) _ _ _ _

theorem concatLoop_progress_le (env : Env) (k : Option Nat) (total : Nat) :
    ∀ (fs : List Path) (idx polls : Nat) (text : String) (errors : List String)
      (progress : List (Nat × String)) (processed : Nat),
      (concatLoop env k total fs idx polls text errors progress processed).progress.length +
        processed ≤
      (concatLoop env k total fs idx polls text errors progress processed).processed +
        progress.length := by
  intro fs
  induction fs with
  | nil =>
    intro idx polls text errors progress processed
    simp [concatLoop]
    omega
  | cons f rest ih =>
    intro idx polls text errors progress processed
    cases hcc : checkCancel k polls with
    | true =>
      simp [concatLoop, hcc]
      omega
    | false =>
      cases hr : env.readF f with
      | ok content =>
        rw [show concatLoop env k total (f :: rest) idx polls text errors
              progress processed =
            concatLoop env k total rest (idx + 1) (polls + 1)
              (text ++ blockOf f content) errors
              (progress ++ [(pyPercent idx total, base f)]) (processed + 1) from by
              simp [concatLoop, hcc, hr]]
        have := ih (idx + 1) (polls + 1) (text ++ blockOf f content) errors
          (progress ++ [(pyPercent idx total, base f)]) (processed + 1)
        simp at this
        omega
      | error reason =>
        rw [show concatLoop env k total (f :: rest) idx polls text errors
              progress processed =
            concatLoop env k total rest (idx + 1) (polls + 1)
              text (errors ++ ["Error reading " ++ renderPath f ++ ": " ++ reason])
              progress (processed + 1) from by
              simp [concatLoop, hcc, hr]]
        have := ih (idx + 1) (polls + 1) text
          (errors ++ ["Error reading " ++ renderPath f ++ ": " ++ reason])
          progress (processed + 1)
        omega

theorem runModel_discovered (cfg : Config) (env : Env) (roots : List RootSel)
    (k : Option Nat) :
    (runModel cfg env roots k).discovered =
      (discoverRoots cfg env k roots initDState).st.acc := by
  unfold runModel
  cases hdd : discoverRoots cfg env k roots initDState with
  | mk dst c =>
    cases c with
    | true => simp
    | false =>
      simp only
      by_cases hL : dst.acc.length = 0
      · simp [hL]
      · simp only [hL, if_false]
        cases (concatLoop env k dst.acc.length dst.acc 1 dst.polls "" [] [] 0).cancelled <;>
          simp

theorem runModel_progress_le (cfg : Config) (env : Env) (roots : List RootSel)
    (k : Option Nat) :
    (runModel cfg env roots k).progress.length ≤ (runModel cfg env roots k).processed := by
  unfold runModel
  cases hdd : discoverRoots cfg env k roots initDState with
  | mk dst c =>
    cases c with
    | true => simp
    | false =>
      simp only
      by_cases hL : dst.acc.length = 0
      · simp [hL]
      · simp only [hL, if_false]
        have := concatLoop_progress_le env k dst.acc.length dst.acc 1 dst.polls "" [] [] 0
        simp at this
        cases (concatLoop env k dst.acc.length dst.acc 1 dst.polls "" [] [] 0).cancelled <;>
          simpa using this

theorem runModel_sim_aux (cfg : Config) (env : Env) (roots : List RootSel) (j : Nat) :
    ((runModel cfg env roots (some j)).outcome = .cancelled ∨
      runModel cfg env roots (some j) = runModel cfg env roots none) ∧
    (∃ d, (runModel cfg env roots none).progress =
      (runModel cfg env roots (some j)).progress ++ d) := by
  have hinit := coh_init env.git
  have hdn := discoverRoots_none cfg env roots initDState hinit
  rcases discoverRoots_sim cfg env j roots initDState hinit with heq | hcanc
  · -- discovery runs in lockstep
    cases hddn : discoverRoots cfg env none roots initDState with
    | mk dst cn =>
      rw [hddn] at hdn heq
      simp only at hdn
      unfold runModel
      rw [heq, hddn, hdn.1]
      simp only [Bool.false_eq_true, if_false]
      by_cases hL : dst.acc.length = 0
      · rw [if_pos hL, if_pos hL]
        exact ⟨Or.inr rfl, [], by simp⟩
      · rw [if_neg hL, if_neg hL]
        rcases concatLoop_sim env dst.acc.length j dst.acc 1 dst.polls "" [] [] 0 with
          hceq | hccanc
        · rw [hceq]
          exact ⟨Or.inr rfl, [], by simp⟩
        · cases hcj : concatLoop env (some j) dst.acc.length dst.acc 1 dst.polls "" [] [] 0 with
          | mk ctext cerrors cprogress cpolls cprocessed ccancelled =>
            rw [hcj] at hccanc
            simp only at hccanc
            rw [hccanc.1]
            simp only [if_true]
            constructor
            · left
              trivial
            · obtain ⟨d, hd⟩ := hccanc.2
              refine ⟨d, ?_⟩
              rw [concatLoop_none] at hd ⊢
              simp only at hd ⊢
              cases hcn : (concatLoop env none dst.acc.length dst.acc 1 dst.polls
                  "" [] [] 0).cancelled
              · simpa using hd
              · rw [concatLoop_none] at hcn
                simp at hcn
  · -- discovery observed the flag
    cases hdj : discoverRoots cfg env (some j) roots initDState with
    | mk dstj cj =>
      rw [hdj] at hcanc
      simp only at hcanc
      unfold runModel
      rw [hdj, hcanc.1]
      simp only [if_true]
      refine ⟨Or.inl (by trivial), ?_⟩
      exact ⟨(runModel cfg env roots none).progress, by
        rw [runModel]
        simp⟩

theorem runModel_sim (cfg : Config) (env : Env) (roots : List RootSel) (j : Nat) :
    ((runModel cfg env roots (some j)).outcome = .cancelled ∨
      runModel cfg env roots (some j) = runModel cfg env roots none) ∧
    (runModel cfg env roots (some j)).progress.length ≤
      (runModel cfg env roots (some j)).processed ∧
    (∃ d, (runModel cfg env roots none).discovered =
      (runModel cfg env roots (some j)).discovered ++ d) ∧
    (∃ d, (runModel cfg env roots none).progress =
      (runModel cfg env roots (some j)).progress ++ d) := by
  have haux := runModel_sim_aux cfg env roots j
  refine ⟨haux.1, runModel_progress_le cfg env roots (some j), ?_, haux.2⟩
  rw [runModel_discovered cfg env roots (some j), runModel_discovered cfg env roots none]
  have hinit := coh_init env.git
  rcases discoverRoots_sim cfg env j roots initDState hinit with heq | hcanc
  · exact ⟨[], by rw [heq]; simp⟩
  · exact hcanc.2

/-! ## Shape of discovered paths (for C4) -/

mutual
theorem walkP_shape (cfg : Config) (env : Env) (p : Path) (t : DirTree) :
    ∀ f ∈ walkP cfg env p t, ∃ ds name, f = p ++ ds ++ [name] ∧
      ∀ d ∈ ds, d ∉ cfg.directory_ignore_patterns := by
  cases t with
  | node files subs =>
    intro f hf
    rw [show walkP cfg env p (.node files subs) =
        filesKept cfg env p files ++ walkPsubs cfg env p subs from by simp [walkP]] at hf
    rcases List.mem_append.1 hf with hf | hf
    · have hm := (List.mem_filter.1 hf).1
      obtain ⟨name, _, hname⟩ := List.mem_map.1 hm
      exact ⟨[], name, by simp [← hname], by simp⟩
    · exact walkPsubs_shape cfg env p subs f hf

theorem walkPsubs_shape (cfg : Config) (env : Env) (p : Path) (subs : SubForest) :
    ∀ f ∈ walkPsubs cfg env p subs, ∃ ds name, f = p ++ ds ++ [name] ∧
      ∀ d ∈ ds, d ∉ cfg.directory_ignore_patterns := by
  cases subs with
  | nil => intro f hf; simp [walkPsubs] at hf
  | cons name t rest =>
    intro f hf
    rw [show walkPsubs cfg env p (.cons name t rest) =
        (if cfg.directory_ignore_patterns.contains name then []
         else walkP cfg env (p ++ [name]) t) ++ walkPsubs cfg env p rest from by
      simp [walkPsubs]] at hf
    rcases List.mem_append.1 hf with hf | hf
    · cases hig : cfg.directory_ignore_patterns.contains name with
      | true => rw [hig] at hf; simp at hf
      | false =>
        rw [hig] at hf
        simp only [Bool.false_eq_true, if_false] at hf
        have hig' : name ∉ cfg.directory_ignore_patterns := by simpa using hig
        obtain ⟨ds, nm, hshape, hclean⟩ := walkP_shape cfg env (p ++ [name]) t f hf
        refine ⟨name :: ds, nm, ?_, ?_⟩
        · rw [hshape]; simp
        · intro d hd
          rcases List.mem_cons.1 hd with hd | hd
          · rw [hd]; exact hig'
          · exact hclean d hd
    · exact walkPsubs_shape cfg env p rest f hf
end

/-! ## Counting (for C10) -/

theorem count_le_count_map {α β : Type} [BEq α] [LawfulBEq α] [BEq β] [LawfulBEq β] (g : α → β)
    (a : α) : ∀ l : List α, l.count a ≤ (l.map g).count (g a) := by
  intro l
  induction l with
  | nil => simp
  | cons b rest ih =>
    simp only [List.map_cons, List.count_cons]
    by_cases hb : b = a
    · have hgb : g b = g a := by rw [hb]
      simp [hb, hgb]
      omega
    · by_cases hgb : g b = g a <;> simp [hb, hgb] <;> omega

theorem count_le_count_filterMap {α β : Type} [BEq α] [LawfulBEq α] [BEq β] [LawfulBEq β]
    (g : α → Option β) (a : α) (b : β) (hg : g a = some b) :
    ∀ l : List α, l.count a ≤ (l.filterMap g).count b := by
  intro l
  induction l with
  | nil => simp
  | cons c rest ih =>
    by_cases hc : c = a
    · subst hc
      simp only [List.filterMap_cons, hg, List.count_cons]
      simp
      omega
    · cases hgc : g c with
      | none =>
        simp only [List.filterMap_cons, hgc, List.count_cons]
        simp [hc]
        omega
      | some b' =>
        simp only [List.filterMap_cons, hgc, List.count_cons]
        by_cases hb' : b' = b <;> simp [hc, hb'] <;> omega

/-! ## Text assembly (for C3, C8, C10) -/

theorem textOf_append (env : Env) :
    ∀ l1 l2 : List Path, textOf env (l1 ++ l2) = textOf env l1 ++ textOf env l2 := by
  intro l1 l2
  induction l1 with
  | nil => simp [textOf, String.empty_append]
  | cons f rest ih =>
    simp only [List.cons_append, textOf, List.append_eq, ih, String.append_assoc]

theorem textOf_eq_join (env : Env) :
    ∀ fs : List Path, textOf env fs = String.join (blocksOf env fs) := by
  intro fs
  induction fs with
  | nil => simp [textOf, blocksOf, String.join]
  | cons f rest ih =>
    cases hr : env.readF f with
    | ok content =>
      have hb : blocksOf env (f :: rest) = blockOf f content :: blocksOf env rest := by
        simp [blocksOf, List.filterMap_cons, hr]
      rw [show textOf env (f :: rest) = blockOf f content ++ textOf env rest from by
            simp [textOf, hr],
          hb, string_join_cons, ih]
    | error reason =>
      have hb : blocksOf env (f :: rest) = blocksOf env rest := by
        simp [blocksOf, List.filterMap_cons, hr]
      rw [show textOf env (f :: rest) = "" ++ textOf env rest from by simp [textOf, hr],
          hb, String.empty_append, ih]

/-! ## Booleans (for C5) -/

theorem any_ne_eq_not_all_eq : ∀ l : List Char,
    (l.any (fun c => c != '.')) = !(l.all (fun c => c == '.')) := by
  intro l
  induction l with
  | nil => simp
  | cons c rest ih =>
    have ih' : (rest.any fun c => !(c == '.')) = !rest.all (fun c => c == '.') := by
      simpa [bne] using ih
    simp [List.any_cons, List.all_cons, bne, ih', Bool.not_and]

/-! ## The float percentage is not the exact floor -/

/-- For the 29th of 50 files the source emits 57 — `29 / 50` rounds to a
binary64 just below `0.58`, whose product with `100` rounds below `58` and
truncates to 57 — while the exact `floor(29 * 100 / 50)` is 58.  When the
ratio is exactly representable (as for 1 of 2), the two agree. -/
theorem pyPercent_floor_divergence :
    pyPercent 29 50 = 57 ∧ 29 * 100 / 50 = 58 ∧ pyPercent 1 2 = 50 := by
  refine ⟨by rfl, by rfl, by rfl⟩

/-! # Claims -/

/-! ## C1 -/

/-- C1 (counterexample): the claim says the Resolver invokes "resolve
repository root" at most once per distinct repository, the repo-root cache
being keyed by the containing directory.  In a run over two files of the
same repository (every resolution returns root `/d`, and the tracked-set
cache holds the single repository `/d`), `git rev-parse` is invoked twice,
because the cache is in fact keyed by the full queried file path. -/
theorem c1_counterexample :
    (runModel cfg1 env1 roots1 none).resolver.revParseCalls = 2 ∧
    (runModel cfg1 env1 roots1 none).resolver.repo_roots.map Prod.snd = [["d"], ["d"]] ∧
    (runModel cfg1 env1 roots1 none).resolver.tracked_files_cache.map Prod.fst = [["d"]] ∧
    (runModel cfg1 env1 roots1 none).resolver.lsFilesCalls = 1 := by
  decide

/-- C1 (amended): over any run in which the external git commands never fail,
the tracked-set cache is keyed by repository root with pairwise-distinct
keys and the "list tracked files" command is invoked exactly once per cached
repository — at most once per distinct repository; the repo-root cache is
keyed by the full queried file path (not its containing directory), with
pairwise-distinct keys, and "resolve repository root" is invoked exactly once
per distinct queried file path, which can exceed once per repository.
Failed invocations are not cached and would be repeated. -/
theorem c1_amended (cfg : Config) (env : Env) (roots : List RootSel) (k : Option Nat)
    (hrev : ∀ p, (env.git.revParse p).isSome)
    (hls : ∀ p, (env.git.lsFiles p).isSome) :
    (runModel cfg env roots k).resolver.lsFilesCalls =
      (runModel cfg env roots k).resolver.tracked_files_cache.length ∧
    ((runModel cfg env roots k).resolver.tracked_files_cache.map Prod.fst).Nodup ∧
    (runModel cfg env roots k).resolver.revParseCalls =
      (runModel cfg env roots k).resolver.repo_roots.length ∧
    ((runModel cfg env roots k).resolver.repo_roots.map Prod.fst).Nodup := by
  have hc := runModel_cnt cfg env roots k hrev hls
  exact ⟨hc.2.2.1, hc.2.2.2, hc.1, hc.2.1⟩

/-- C1 (witness): the amended statement evaluated on the two-file, one
repository run. -/
theorem c1_witness :
    (∀ p : Path, (env1.git.revParse p).isSome) ∧
    (∀ p : Path, (env1.git.lsFiles p).isSome) ∧
    ((runModel cfg1 env1 roots1 none).resolver.lsFilesCalls =
      (runModel cfg1 env1 roots1 none).resolver.tracked_files_cache.length ∧
    ((runModel cfg1 env1 roots1 none).resolver.tracked_files_cache.map Prod.fst).Nodup ∧
    (runModel cfg1 env1 roots1 none).resolver.revParseCalls =
      (runModel cfg1 env1 roots1 none).resolver.repo_roots.length ∧
    ((runModel cfg1 env1 roots1 none).resolver.repo_roots.map Prod.fst).Nodup) :=
  ⟨fun _ => rfl, fun _ => rfl,
   c1_amended cfg1 env1 roots1 none (fun _ => rfl) (fun _ => rfl)⟩

/-! ## C2 -/

/-- C2 (counterexample): the claim says a progress event is emitted after
each file, both on success and on failure, with percentage
`floor(index / total * 100)`.  In a run over `a.py` (readable) and `b.py`
(unreadable), the claim demands the event list
`[(50, "a.py"), (100, "b.py")]`, but the run emits only `[(50, "a.py")]`:
the `except` branch does `continue` before the `progress_update.emit`.
(The percentages 50 and 100 are exact in binary64, so the claimed list is
what the claim's formula demands under either arithmetic.) -/
theorem c2_counterexample :
    (runModel cfg2 env2 roots2 none).outcome =
      .success "=== a.py ===\nA\n\n" [["a.py"], ["b.py"]]
        ["Error reading /b.py: Permission denied"] ∧
    (runModel cfg2 env2 roots2 none).progress = [(50, "a.py")] ∧
    (runModel cfg2 env2 roots2 none).progress ≠ [(50, "a.py"), (100, "b.py")] := by
  decide

/-- C2 (amended): over a non-empty discovered list, a progress event is
emitted only after each successfully read file — a failed read skips the
event — carrying the percentage `int((index / total) * 100)` computed in
binary64 floating point (`pyPercent`, which can fall one below the exact
`floor(index * 100 / total)`: see `pyPercent_floor_divergence`), the index
counted from 1 over all files in discovery order, and the file's base
name. -/
theorem c2_amended (cfg : Config) (env : Env) (roots : List RootSel)
    (text : String) (files : List Path) (errors : List String)
    (h : (runModel cfg env roots none).outcome = .success text files errors) :
    (runModel cfg env roots none).progress = progListOf env files.length 1 files := by
  have hs := runModel_none_spec cfg env roots
  by_cases hemp : discoverP cfg env roots = []
  · rw [(hs.2.1 hemp).1] at h
    simp at h
  · have h2 := hs.2.2 hemp
    rw [h2.1] at h
    injection h with h1 h2' h3
    rw [h2.2.1, ← h2']

/-- C2 (witness): the amended statement evaluated on the run of
`c2_counterexample`. -/
theorem c2_witness :
    (runModel cfg2 env2 roots2 none).outcome =
      .success "=== a.py ===\nA\n\n" [["a.py"], ["b.py"]]
        ["Error reading /b.py: Permission denied"] ∧
    (runModel cfg2 env2 roots2 none).progress =
      progListOf env2 ([["a.py"], ["b.py"]] : List Path).length 1 [["a.py"], ["b.py"]] :=
  ⟨by decide, c2_amended cfg2 env2 roots2 "=== a.py ===\nA\n\n" [["a.py"], ["b.py"]]
    ["Error reading /b.py: Permission denied"] (by decide)⟩

/-! ## C3 -/

/-- C3: a file that fails to read is recorded in the error list with its path
and reason, the run still ends in the success state over all discovered
files (the failed file included in the emitted file list), and the failed
file contributes nothing to the concatenated text: splitting the file list
around it, the text is exactly the text of the two remaining parts. -/
theorem c3_failed_read (cfg : Config) (env : Env) (roots : List RootSel) (f : Path)
    (reason : String)
    (hne : discoverP cfg env roots ≠ [])
    (hf : f ∈ discoverP cfg env roots)
    (hr : env.readF f = .error reason) :
    (runModel cfg env roots none).outcome =
      .success (textOf env (discoverP cfg env roots)) (discoverP cfg env roots)
        (errListOf env (discoverP cfg env roots)) ∧
    ("Error reading " ++ renderPath f ++ ": " ++ reason) ∈
      errListOf env (discoverP cfg env roots) ∧
    f ∈ discoverP cfg env roots ∧
    (∀ l1 l2, discoverP cfg env roots = l1 ++ f :: l2 →
      textOf env (discoverP cfg env roots) = textOf env l1 ++ textOf env l2) := by
  have hs := runModel_none_spec cfg env roots
  refine ⟨(hs.2.2 hne).1, ?_, hf, ?_⟩
  · exact List.mem_filterMap.2 ⟨f, hf, by simp [hr]⟩
  · intro l1 l2 hsplit
    rw [hsplit, textOf_append]
    rw [show textOf env (f :: l2) = "" ++ textOf env l2 from by simp [textOf, hr],
      String.empty_append]

/-- C3 (witness): the statement evaluated on a run over `good.py`, an
unreadable `bad.py`, and `last.py`. -/
theorem c3_witness :
    discoverP cfg3 env3 roots3 ≠ [] ∧
    (["bad.py"] : Path) ∈ discoverP cfg3 env3 roots3 ∧
    env3.readF ["bad.py"] = .error "Permission denied" ∧
    ((runModel cfg3 env3 roots3 none).outcome =
      .success (textOf env3 (discoverP cfg3 env3 roots3)) (discoverP cfg3 env3 roots3)
        (errListOf env3 (discoverP cfg3 env3 roots3)) ∧
    ("Error reading " ++ renderPath ["bad.py"] ++ ": " ++ "Permission denied") ∈
      errListOf env3 (discoverP cfg3 env3 roots3) ∧
    (["bad.py"] : Path) ∈ discoverP cfg3 env3 roots3 ∧
    (∀ l1 l2, discoverP cfg3 env3 roots3 = l1 ++ ["bad.py"] :: l2 →
      textOf env3 (discoverP cfg3 env3 roots3) = textOf env3 l1 ++ textOf env3 l2)) :=
  ⟨by decide, by decide, by rfl,
   c3_failed_read cfg3 env3 roots3 ["bad.py"] "Permission denied"
     (by decide) (by decide) (by rfl)⟩

/-! ## C4 -/

/-- C4 (counterexample): the claim says no file located anywhere under a
directory whose name is in the directory-ignore set ever appears in the
discovered list.  Selecting the directory `/node_modules` itself — its name
being in the ignore set — discovers the file `/node_modules/a.py`, which
lies under a directory named `node_modules`: pruning applies only to
subdirectories met during the walk, never to a selected root (nor to
selected file roots). -/
theorem c4_counterexample :
    (runModel cfg4 env4 roots4 none).discovered = [["node_modules", "a.py"]] ∧
    (runModel cfg4 env4 roots4 none).discovered.any
      (hasIgnoredAncestor cfg4.directory_ignore_patterns) = true ∧
    "node_modules" ∈ cfg4.directory_ignore_patterns := by
  decide

/-- C4 (amended): every file of a successful run's file list comes from one
of the selected roots, and when that root is a directory the file's path is
the root followed by a chain of subdirectory names none of which is in the
directory-ignore set — so below a selected directory root, pruned subtrees
contribute nothing, however deeply nested. -/
theorem c4_amended (cfg : Config) (env : Env) (roots : List RootSel)
    (text : String) (files : List Path) (errors : List String)
    (h : (runModel cfg env roots none).outcome = .success text files errors) :
    ∀ f ∈ files, ∃ r ∈ roots, f ∈ discoverRootP cfg env r ∧
      ∀ p t, r = RootSel.dirSel p t →
        ∃ ds name, f = p ++ ds ++ [name] ∧
          ∀ d ∈ ds, d ∉ cfg.directory_ignore_patterns := by
  have hs := runModel_none_spec cfg env roots
  by_cases hemp : discoverP cfg env roots = []
  · rw [(hs.2.1 hemp).1] at h
    simp at h
  · have h2 := hs.2.2 hemp
    rw [h2.1] at h
    injection h with h1 h2' h3
    intro f hf
    rw [← h2'] at hf
    unfold discoverP at hf
    obtain ⟨l, hl, hfl⟩ := List.mem_flatten.1 hf
    obtain ⟨r, hrr, hrl⟩ := List.mem_map.1 hl
    rw [← hrl] at hfl
    refine ⟨r, hrr, hfl, ?_⟩
    intro p t hrt
    subst hrt
    exact walkP_shape cfg env p t f (by simpa [discoverRootP] using hfl)

/-- C4 (witness): the amended statement evaluated on a root `/r` containing
`a.py` and an ignored `node_modules` subdirectory containing `b.py`:
the run discovers only `/r/a.py`, and the theorem locates it under the
selected root with an empty (hence clean) subdirectory chain. -/
theorem c4_witness :
    (runModel cfg4w env4w roots4w none).outcome =
      .success "=== a.py ===\nX\n\n" [["r", "a.py"]] [] ∧
    (∃ r ∈ roots4w, (["r", "a.py"] : Path) ∈ discoverRootP cfg4w env4w r ∧
      ∀ p t, r = RootSel.dirSel p t →
        ∃ ds name, (["r", "a.py"] : Path) = p ++ ds ++ [name] ∧
          ∀ d ∈ ds, d ∉ cfg4w.directory_ignore_patterns) :=
  ⟨by decide,
   c4_amended cfg4w env4w roots4w "=== a.py ===\nX\n\n" [["r", "a.py"]] []
     (by decide) ["r", "a.py"] (by decide)⟩

/-! ## C5 -/

/-- C5 (counterexample): the claim defines the extension as the substring of
the final segment from its last dot on.  For the path `/.bashrc` with
allowed set containing `.bashrc`, the claim's reading includes the file, but
`is_included_file` does not: `os.path.splitext` yields an empty extension
when only dots precede the last dot of the base name. -/
theorem c5_counterexample :
    specIncludedByExtension [".bashrc"] [".bashrc"] = true ∧
    is_included_file ⟨false, [], [], [".bashrc"]⟩ [".bashrc"] = false ∧
    is_included_file ⟨false, [], [], [".bashrc"]⟩ [".bashrc"] ≠
      specIncludedByExtension [".bashrc"] [".bashrc"] := by
  decide

/-- C5 (amended): the inclusion-by-extension predicate returns true exactly
when the extension — the substring of the final segment from its last dot
on, except that it is empty when there is no dot or when every character of
the segment before that dot is itself a dot — lower-cased, is a member of
the allowed set. -/
theorem c5_amended (cfg : Config) (f : Path) :
    is_included_file cfg f = amendedIncludedByExtension cfg.include_extensions f := by
  have hx : splitextExt (base f).data =
      (match lastDotIdx (base f).data with
       | none => []
       | some i => if ((base f).data.take i).all (fun c => c == '.') then []
                   else (base f).data.drop i) := by
    unfold splitextExt
    cases h : lastDotIdx (base f).data with
    | none => rfl
    | some i =>
      simp only
      rw [any_ne_eq_not_all_eq]
      cases hall : ((base f).data.take i).all (fun c => c == '.') <;> simp [hall]
  unfold is_included_file amendedIncludedByExtension
  rw [hx]

/-! ## C6 -/

/-- C6: the claim (and the source's own comment on its `except ValueError`
branch) says a file not under the root is inserted as a single base-name
leaf.  On POSIX, `os.path.relpath` never raises `ValueError` for an
out-of-root path; for files `[/other/x.py]` and root `/root` the tree built
is `.. → other → x.py`, not the leaf `x.py`. -/
theorem c6_relpath_bug :
    generate_file_tree [["other", "x.py"]] ["root"] =
      some (FTree.node [("..", some (FTree.node
        [("other", some (FTree.node [("x.py", none)]))]))]) ∧
    topKeys (generate_file_tree [["other", "x.py"]] ["root"]) = [".."] ∧
    topKeys (generate_file_tree [["other", "x.py"]] ["root"]) ≠ ["x.py"] :=
  ⟨rfl, rfl, by decide⟩

/-! ## C7 -/

/-- C7: the cancellation flag is polled at the top of the outer root loop, at
the top of each directory iteration and before work on each file (this is
where `checkCancel` sits in `discoverRoots`, `walkTree`, `walkFiles` and
`concatLoop`); for every cancellation point `j`, either some poll observes
the flag and the run reports the cancelled outcome — never an error or
success — or no poll observes it and the run is identical to the
uncancelled one; the number of progress events never exceeds the number of
files processed before the halt, and the cancelled run's file list and
progress events are prefixes of the uncancelled run's. -/
theorem c7_cancellation (cfg : Config) (env : Env) (roots : List RootSel) (j : Nat) :
    ((runModel cfg env roots (some j)).outcome = .cancelled ∨
      runModel cfg env roots (some j) = runModel cfg env roots none) ∧
    (runModel cfg env roots (some j)).progress.length ≤
      (runModel cfg env roots (some j)).processed ∧
    (∃ d, (runModel cfg env roots none).discovered =
      (runModel cfg env roots (some j)).discovered ++ d) ∧
    (∃ d, (runModel cfg env roots none).progress =
      (runModel cfg env roots (some j)).progress ++ d) :=
  runModel_sim cfg env roots j

/-! ## C8 -/

/-- C8: the concatenated text of a successful run is exactly the
concatenation of the blocks `"=== <basename> ===\n<content>\n\n"` of the
successfully read files, one block per successfully read file, in discovery
order. -/
theorem c8_output_blocks (cfg : Config) (env : Env) (roots : List RootSel)
    (text : String) (files : List Path) (errors : List String)
    (h : (runModel cfg env roots none).outcome = .success text files errors) :
    text = String.join (blocksOf env files) := by
  have hs := runModel_none_spec cfg env roots
  by_cases hemp : discoverP cfg env roots = []
  · rw [(hs.2.1 hemp).1] at h
    simp at h
  · have h2 := hs.2.2 hemp
    rw [h2.1] at h
    injection h with h1 h2' h3
    rw [← h1, ← h2', textOf_eq_join]

/-- C8 (witness): the statement evaluated on a run over `a.py`, an
unreadable `mid.py`, and `z.py`. -/
theorem c8_witness :
    (runModel cfg8 env8 roots8 none).outcome =
      .success "=== a.py ===\nalpha\n\n=== z.py ===\nomega\n\n"
        [["a.py"], ["mid.py"], ["z.py"]] ["Error reading /mid.py: boom"] ∧
    "=== a.py ===\nalpha\n\n=== z.py ===\nomega\n\n" =
      String.join (blocksOf env8 [["a.py"], ["mid.py"], ["z.py"]]) :=
  ⟨by decide, c8_output_blocks cfg8 env8 roots8
    "=== a.py ===\nalpha\n\n=== z.py ===\nomega\n\n"
    [["a.py"], ["mid.py"], ["z.py"]] ["Error reading /mid.py: boom"] (by decide)⟩

/-! ## C9 -/

/-- C9: when discovery yields no files, the run reports the distinguished
"no files found" message through the error channel (an emitted message, not
a raised exception — the model's `errorMsg` outcome is an
`error_occurred.emit` followed by `return`), and no success outcome is
produced. -/
theorem c9_no_files (cfg : Config) (env : Env) (roots : List RootSel)
    (h : discoverP cfg env roots = []) :
    (runModel cfg env roots none).outcome = .errorMsg noFilesMsg ∧
    ∀ t fs es, (runModel cfg env roots none).outcome ≠ .success t fs es := by
  have hs := runModel_none_spec cfg env roots
  have h1 := (hs.2.1 h).1
  refine ⟨h1, ?_⟩
  intro t fs es hc
  rw [h1] at hc
  exact Outcome.noConfusion hc

/-- C9 (witness): the statement evaluated on a request whose only root is a
file that fails the extension filter. -/
theorem c9_witness :
    discoverP cfg9 env9 roots9 = [] ∧
    ((runModel cfg9 env9 roots9 none).outcome = .errorMsg noFilesMsg ∧
    ∀ t fs es, (runModel cfg9 env9 roots9 none).outcome ≠ .success t fs es) :=
  ⟨by decide, c9_no_files cfg9 env9 roots9 (by decide)⟩

/-! ## C10 -/

/-- C10: discovery performs no deduplication: a successful run's file list is
the concatenation of each selected root's contribution, so a file reachable
through k roots appears k times (its count is the sum of the per-root
counts), and the concatenated text joins one block per occurrence, so the
block of a readable file occurs at least as often as the file does. -/
theorem c10_no_dedup (cfg : Config) (env : Env) (roots : List RootSel)
    (text : String) (files : List Path) (errors : List String)
    (h : (runModel cfg env roots none).outcome = .success text files errors) :
    files = (roots.map (discoverRootP cfg env)).flatten ∧
    (∀ p : Path, files.count p =
      ((roots.map (discoverRootP cfg env)).map (List.count p)).sum) ∧
    text = String.join (blocksOf env files) ∧
    (∀ (p : Path) (content : String), env.readF p = .ok content →
      files.count p ≤ (blocksOf env files).count (blockOf p content)) := by
  have hs := runModel_none_spec cfg env roots
  by_cases hemp : discoverP cfg env roots = []
  · rw [(hs.2.1 hemp).1] at h
    simp at h
  · have h2 := hs.2.2 hemp
    rw [h2.1] at h
    injection h with h1 h2' h3
    have hfd : files = (roots.map (discoverRootP cfg env)).flatten := by
      rw [← h2']
      rfl
    refine ⟨hfd, ?_, ?_, ?_⟩
    · intro p
      rw [hfd]
      exact List.count_flatten p _
    · rw [← h1, ← h2', textOf_eq_join]
    · intro p content hp
      have hg : (match env.readF p with
          | Except.ok c => some (blockOf p c)
          | Except.error _ => none) = some (blockOf p content) := by
        rw [hp]
      exact count_le_count_filterMap
        (fun f => match env.readF f with
          | Except.ok c => some (blockOf f c)
          | Except.error _ => none) p (blockOf p content) hg files

/-- C10 (witness): `/r/a.py` selected both directly and through the
directory root `/r`: it is discovered twice and its block appears twice in
the output. -/
theorem c10_witness :
    (runModel cfg10 env10 roots10 none).outcome =
      .success "=== a.py ===\ndup\n\n=== a.py ===\ndup\n\n"
        [["r", "a.py"], ["r", "a.py"]] [] ∧
    ([["r", "a.py"], ["r", "a.py"]] : List Path).count ["r", "a.py"] = 2 ∧
    ([["r", "a.py"], ["r", "a.py"]] : List Path).count ["r", "a.py"] =
      ((roots10.map (discoverRootP cfg10 env10)).map (List.count ["r", "a.py"])).sum :=
  ⟨by decide, by decide,
   (c10_no_dedup cfg10 env10 roots10 "=== a.py ===\ndup\n\n=== a.py ===\ndup\n\n"
     [["r", "a.py"], ["r", "a.py"]] [] (by decide)).2.1 ["r", "a.py"]⟩

end Promptly
